import Mathlib

/-!
# Verification of the Schema Intelligence Engine core algorithms

A shallow embedding of the core algorithms of the `ex-convex` repository:
the schema drift differ (`src/schema/driftDiff.ts`), the schema definition
parser (`src/schema/schemaParser.ts`), the document type inferencer, the
index-coverage rule evaluator, and the import-following source collector.

Conventions of the embedding:
* JavaScript numbers are represented as rationals (`ℚ`); where the source
  performs arithmetic that rounds — the inferencer's statistics — the
  IEEE-754 binary64 round-to-nearest-even rounding is modelled explicitly
  by `fl`, so the stored values are exactly the doubles the program
  computes;
* a JavaScript `Map` is modelled as an insertion-ordered association list
  (`jsMapOfList`; key order = first insertion, value = last write), matching
  `new Map(pairs)` / `map.set` semantics;
* a JavaScript `Set` is modelled as an insertion-ordered duplicate-free list;
* `Array.prototype.sort` (a stable sort) is modelled with `List.insertionSort`
  (also stable) over the comparator's "comes-not-after" relation;
* file-system access (`vscode.workspace.fs.readFile`) is modelled as an
  oracle `String → Option String` from candidate paths to contents;
* `Date.now()` is modelled as an explicit `now : Nat` argument.
-/

/-! ## JavaScript collection semantics -/

/-- `map.set k v` on an insertion-ordered JS `Map`: update in place if the key
is present (keeping its position), otherwise append. -/
def jsMapInsert {α : Type} (m : List (String × α)) (k : String) (v : α) :
    List (String × α) :=
  if m.any (fun p => p.1 == k) then
    m.map (fun p => if p.1 == k then (k, v) else p)
  else
    m ++ [(k, v)]

/-- `new Map(pairs)`: fold `set` over the pair list. -/
def jsMapOfList {α : Type} (l : List (String × α)) : List (String × α) :=
  l.foldl (fun m p => jsMapInsert m p.1 p.2) []

/-- `map.get k` (returning `undefined` as `none`). -/
def jsMapGet {α : Type} (m : List (String × α)) (k : String) : Option α :=
  (m.find? (fun p => p.1 == k)).map (·.2)

/-- `map.has k`. -/
def jsMapHas {α : Type} (m : List (String × α)) (k : String) : Bool :=
  m.any (fun p => p.1 == k)

/-- `set.add` on a JS `Set` (insertion-ordered, duplicate-free). -/
def jsSetAdd (l : List String) (s : String) : List String :=
  if l.contains s then l else l ++ [s]

/-- `new Set(items)` viewed as a list in iteration order. -/
def jsSetList (l : List String) : List String :=
  l.foldl jsSetAdd []

/-! ## Shared data model (`src/shared/types.ts`) -/

/-- `RelationEdge.source` union type. -/
inductive RelSource where
  | inferred
  | manual
deriving DecidableEq, Repr

structure FieldStat where
  path : String
  types : List String
  optionalRate : ℚ
  sampleCount : Nat
  confidence : ℚ
deriving DecidableEq, Repr

structure TableSchema where
  table : String
  fields : List FieldStat
  sampledDocs : Nat
  inferredAt : Nat
deriving DecidableEq, Repr

structure RelationEdge where
  fromTable : String
  fromFieldPath : String
  toTable : String
  confidence : ℚ
  source : RelSource
deriving DecidableEq, Repr

/-- `IndexDefinition.type` union type. -/
inductive IndexType where
  | by_field
  | search
  | vector
deriving DecidableEq, Repr

structure IndexDefinition where
  table : String
  name : String
  fields : List String
  type : IndexType
deriving DecidableEq, Repr

structure SchemaSnapshot where
  id : String
  deploymentId : String
  createdAt : Nat
  tables : List TableSchema
  relations : List RelationEdge
deriving DecidableEq, Repr

inductive FieldChange where
  | added
  | removed
  | type_changed
deriving DecidableEq, Repr

structure FieldDiff where
  path : String
  change : FieldChange
  oldTypes : Option (List String)
  newTypes : Option (List String)
deriving DecidableEq, Repr

inductive TableChange where
  | added
  | removed
  | modified
deriving DecidableEq, Repr

structure TableDiff where
  table : String
  change : TableChange
  fieldDiffs : List FieldDiff
deriving DecidableEq, Repr

structure SchemaDriftDto where
  fromSnapshotId : String
  toSnapshotId : String
  tableDiffs : List TableDiff
  summary : String
deriving DecidableEq, Repr

/-! ## Schema drift differ (`src/schema/driftDiff.ts`) -/

/-- `[...types].sort()`: JS default sort on an array of strings
(lexicographic). Used before comparing type sets; `JSON.stringify` equality
of two sorted string arrays is equality of the sorted lists (stringification
of a string array is injective). -/
def sortStrings (l : List String) : List String :=
  List.insertionSort (· ≤ ·) l

/-- Stable sort of field diffs by `a.path.localeCompare(b.path)`. -/
def sortFieldDiffs (l : List FieldDiff) : List FieldDiff :=
  List.insertionSort (fun a b => a.path ≤ b.path) l

/-- Body of the first loop of `diffFields` (over `toMap`): an absent path is
`added`; a present path whose sorted type lists differ is `type_changed`. -/
def fieldDiffOfToEntry (fromMap : List (String × FieldStat)) (p : String × FieldStat) :
    Option FieldDiff :=
  match jsMapGet fromMap p.1 with
  | none => some { path := p.1, change := .added,
                   oldTypes := none, newTypes := some p.2.types }
  | some fromField =>
    if sortStrings p.2.types ≠ sortStrings fromField.types then
      some { path := p.1, change := .type_changed,
             oldTypes := some fromField.types, newTypes := some p.2.types }
    else none

/-- Body of the second loop of `diffFields` (over `fromMap`): a path absent
from `toMap` is `removed`. -/
def fieldDiffOfFromEntry (toMap : List (String × FieldStat)) (p : String × FieldStat) :
    Option FieldDiff :=
  if jsMapHas toMap p.1 then none
  else some { path := p.1, change := .removed,
              oldTypes := some p.2.types, newTypes := none }

/-- `diffFields` from `driftDiff.ts`: field-level diff of two field lists,
keyed by path through JS maps. -/
def diffFields (fromFields toFields : List FieldStat) : List FieldDiff :=
  let fromMap := jsMapOfList (fromFields.map (fun f => (f.path, f)))
  let toMap := jsMapOfList (toFields.map (fun f => (f.path, f)))
  let part1 := toMap.filterMap (fieldDiffOfToEntry fromMap)
  let part2 := fromMap.filterMap (fieldDiffOfFromEntry toMap)
  sortFieldDiffs (part1 ++ part2)

/-- Sort order for table diffs: added first, then modified, then removed. -/
def tableChangeRank : TableChange → Nat
  | .added => 0
  | .modified => 1
  | .removed => 2

/-- Stable sort of table diffs by change rank. -/
def sortTableDiffs (l : List TableDiff) : List TableDiff :=
  List.insertionSort (fun a b => tableChangeRank a.change ≤ tableChangeRank b.change) l

/-- `buildSummary` from `driftDiff.ts`. -/
def buildSummary (tableDiffs : List TableDiff) : String :=
  let added := (tableDiffs.filter (fun t => t.change == TableChange.added)).length
  let removed := (tableDiffs.filter (fun t => t.change == TableChange.removed)).length
  let modified := (tableDiffs.filter (fun t => t.change == TableChange.modified)).length
  let parts : List String :=
    (if added ≠ 0 then [toString added ++ " table(s) added"] else []) ++
    (if removed ≠ 0 then [toString removed ++ " table(s) removed"] else []) ++
    (if modified ≠ 0 then
      let totalFieldChanges :=
        ((tableDiffs.filter (fun t => t.change == TableChange.modified)).map
          (fun t => t.fieldDiffs.length)).sum
      [toString modified ++ " table(s) modified (" ++ toString totalFieldChanges
        ++ " field changes)"]
     else [])
  if parts.length = 0 then "No schema changes detected."
  else String.intercalate ", " parts ++ "."

/-- The `TableDiff` pushed for a table present only in `to` ("Added tables"
loop of `computeDrift`). -/
def addedTableDiff (p : String × TableSchema) : TableDiff :=
  { table := p.1, change := TableChange.added,
    fieldDiffs := p.2.fields.map (fun f =>
      { path := f.path, change := FieldChange.added,
        oldTypes := none, newTypes := some f.types }) }

/-- The `TableDiff` pushed for a table present only in `from` ("Removed
tables" loop of `computeDrift`). -/
def removedTableDiff (p : String × TableSchema) : TableDiff :=
  { table := p.1, change := TableChange.removed,
    fieldDiffs := p.2.fields.map (fun f =>
      { path := f.path, change := FieldChange.removed,
        oldTypes := some f.types, newTypes := none }) }

/-- Body of the "Modified tables" loop of `computeDrift`: a table present in
both snapshots contributes a diff only when its field diff is non-empty. -/
def modifiedTableDiff (toTableMap : List (String × TableSchema))
    (p : String × TableSchema) : Option TableDiff :=
  match jsMapGet toTableMap p.1 with
  | none => none
  | some toTable =>
    let fieldDiffs := diffFields p.2.fields toTable.fields
    if fieldDiffs.length > 0 then
      some { table := p.1, change := TableChange.modified, fieldDiffs := fieldDiffs }
    else none

/-- `computeDrift` from `driftDiff.ts`: compare two snapshots. The three
`for`-loops push added, removed and modified table diffs in that order; the
final stable sort orders them added < modified < removed. -/
def computeDrift (from_ to_ : SchemaSnapshot) : SchemaDriftDto :=
  let fromTableMap := jsMapOfList (from_.tables.map (fun t => (t.table, t)))
  let toTableMap := jsMapOfList (to_.tables.map (fun t => (t.table, t)))
  let addedDiffs := (toTableMap.filter (fun p => !jsMapHas fromTableMap p.1)).map
    addedTableDiff
  let removedDiffs := (fromTableMap.filter (fun p => !jsMapHas toTableMap p.1)).map
    removedTableDiff
  let modifiedDiffs := fromTableMap.filterMap (modifiedTableDiff toTableMap)
  let tableDiffs := sortTableDiffs (addedDiffs ++ removedDiffs ++ modifiedDiffs)
  { fromSnapshotId := from_.id, toSnapshotId := to_.id,
    tableDiffs := tableDiffs, summary := buildSummary tableDiffs }

/-! ## Lemmas about the JS map model -/

theorem jsMapUpdate_keys {α : Type} (m : List (String × α)) (k : String) (v : α) :
    (m.map (fun p => if p.1 == k then (k, v) else p)).map Prod.fst = m.map Prod.fst := by
  induction m with
  | nil => rfl
  | cons hd tl ih =>
    simp only [List.map_cons, ih]
    by_cases hc : (hd.1 == k) = true
    · have hk : hd.1 = k := (beq_iff_eq).1 hc
      simp [hc, hk]
    · simp [hc]

theorem jsMapInsert_keys_nodup {α : Type} (m : List (String × α)) (k : String) (v : α)
    (h : (m.map Prod.fst).Nodup) : ((jsMapInsert m k v).map Prod.fst).Nodup := by
  unfold jsMapInsert
  split
  · rw [jsMapUpdate_keys]; exact h
  · rename_i hnone
    rw [List.map_append]
    simp only [List.map_cons, List.map_nil]
    apply List.Nodup.append h (List.nodup_singleton k)
    intro a ha hb
    simp only [List.mem_singleton] at hb
    subst hb
    have : ∃ p ∈ m, p.1 = a := by
      simpa using ha
    obtain ⟨p, hp, hpa⟩ := this
    apply hnone
    refine List.any_eq_true.2 ⟨p, hp, ?_⟩
    simp [hpa]

theorem jsMapOfList_keys_nodup {α : Type} (l : List (String × α)) :
    ((jsMapOfList l).map Prod.fst).Nodup := by
  have main : ∀ (l : List (String × α)) (m : List (String × α)),
      (m.map Prod.fst).Nodup →
      ((l.foldl (fun m p => jsMapInsert m p.1 p.2) m).map Prod.fst).Nodup := by
    intro l
    induction l with
    | nil => intro m h; simpa using h
    | cons hd tl ih =>
      intro m h
      exact ih _ (jsMapInsert_keys_nodup m hd.1 hd.2 h)
  exact main l [] (by simp)

theorem jsMapHas_of_mem {α : Type} {m : List (String × α)} {p : String × α}
    (h : p ∈ m) : jsMapHas m p.1 = true := by
  unfold jsMapHas
  exact List.any_eq_true.2 ⟨p, h, by simp⟩

theorem jsMapGet_of_nodup_mem {α : Type} {m : List (String × α)} {k : String} {v : α}
    (hnd : (m.map Prod.fst).Nodup) (h : (k, v) ∈ m) : jsMapGet m k = some v := by
  unfold jsMapGet
  induction m with
  | nil => cases h
  | cons hd tl ih =>
    have hnd' : hd.1 ∉ tl.map Prod.fst ∧ (tl.map Prod.fst).Nodup := by
      rw [List.map_cons, List.nodup_cons] at hnd
      exact hnd
    rcases List.mem_cons.1 h with heq | htl
    · subst heq
      simp [List.find?]
    · have hk : (hd.1 == k) = false := by
        apply beq_eq_false_iff_ne.2
        intro hc
        apply hnd'.1
        rw [hc]
        exact List.mem_map.2 ⟨(k, v), htl, rfl⟩
      simp only [List.find?, hk]
      exact ih hnd'.2 htl

theorem jsMapGet_some_mem {α : Type} {m : List (String × α)} {k : String} {v : α}
    (h : jsMapGet m k = some v) : (k, v) ∈ m := by
  unfold jsMapGet at h
  obtain ⟨p, hfind⟩ : ∃ p, m.find? (fun p => p.1 == k) = some p := by
    cases hf : m.find? (fun p => p.1 == k) with
    | none => rw [hf] at h; cases h
    | some p => exact ⟨p, rfl⟩
  rw [hfind] at h
  have hmem := List.mem_of_find?_eq_some hfind
  have hkey : p.1 = k := by
    have := List.find?_some hfind
    exact (beq_iff_eq).1 this
  have hval : p.2 = v := by
    simpa using h
  have : p = (k, v) := by
    cases p; simp_all
  exact this ▸ hmem

/-! ## Drift identity (C1) -/

theorem fieldDiffOfToEntry_self {M : List (String × FieldStat)}
    (hnd : (M.map Prod.fst).Nodup) :
    ∀ p ∈ M, fieldDiffOfToEntry M p = none := by
  intro p hp
  unfold fieldDiffOfToEntry
  rw [jsMapGet_of_nodup_mem hnd hp]
  simp

theorem fieldDiffOfFromEntry_self {M : List (String × FieldStat)} :
    ∀ p ∈ M, fieldDiffOfFromEntry M p = none := by
  intro p hp
  unfold fieldDiffOfFromEntry
  rw [jsMapHas_of_mem hp]
  simp

theorem diffFields_self (fl : List FieldStat) : diffFields fl fl = [] := by
  simp only [diffFields]
  have hnd := jsMapOfList_keys_nodup (fl.map (fun f => (f.path, f)))
  rw [List.filterMap_eq_nil_iff.2 (fieldDiffOfToEntry_self hnd),
      List.filterMap_eq_nil_iff.2 (fieldDiffOfFromEntry_self)]
  rfl

theorem modifiedTableDiff_self {M : List (String × TableSchema)}
    (hnd : (M.map Prod.fst).Nodup) :
    ∀ p ∈ M, modifiedTableDiff M p = none := by
  intro p hp
  unfold modifiedTableDiff
  rw [jsMapGet_of_nodup_mem hnd hp]
  simp [diffFields_self]

theorem computeDrift_self_eq (S : SchemaSnapshot) :
    computeDrift S S =
      { fromSnapshotId := S.id, toSnapshotId := S.id,
        tableDiffs := [], summary := "No schema changes detected." } := by
  simp only [computeDrift]
  have hnd := jsMapOfList_keys_nodup (S.tables.map (fun t => (t.table, t)))
  have hfil : (jsMapOfList (S.tables.map (fun t => (t.table, t)))).filter
      (fun p => !jsMapHas (jsMapOfList (S.tables.map (fun t => (t.table, t)))) p.1) = [] := by
    apply List.filter_eq_nil_iff.2
    intro p hp
    simp [jsMapHas_of_mem hp]
  rw [hfil, List.filterMap_eq_nil_iff.2 (modifiedTableDiff_self hnd)]
  rfl

/-- C1: for every schema snapshot `S`, `computeDrift S S` has an empty
`tableDiffs` sequence and the fixed "no changes" summary. -/
theorem c1_drift_identity (S : SchemaSnapshot) :
    (computeDrift S S).tableDiffs = [] ∧
    (computeDrift S S).summary = "No schema changes detected." := by
  rw [computeDrift_self_eq]
  exact ⟨rfl, rfl⟩

/-! ## Type-set order independence (C6) -/

theorem jsMap_nodup_val_eq {α : Type} {m : List (String × α)}
    (hnd : (m.map Prod.fst).Nodup) {k : String} {v v' : α}
    (h : (k, v) ∈ m) (h' : (k, v') ∈ m) : v = v' := by
  have e1 := jsMapGet_of_nodup_mem hnd h
  have e2 := jsMapGet_of_nodup_mem hnd h'
  rw [e1] at e2
  exact Option.some_inj.mp e2

theorem sortStrings_perm {l1 l2 : List String} (h : l1.Perm l2) :
    sortStrings l1 = sortStrings l2 := by
  have hs1 : List.Sorted (fun a b : String => a ≤ b) (sortStrings l1) :=
    List.sorted_insertionSort _ l1
  have hs2 : List.Sorted (fun a b : String => a ≤ b) (sortStrings l2) :=
    List.sorted_insertionSort _ l2
  have hp : (sortStrings l1).Perm (sortStrings l2) :=
    (List.perm_insertionSort _ l1).trans (h.trans (List.perm_insertionSort _ l2).symm)
  exact List.eq_of_perm_of_sorted hp hs1 hs2

theorem fieldDiffOfToEntry_path {M : List (String × FieldStat)}
    {q : String × FieldStat} {d : FieldDiff}
    (h : fieldDiffOfToEntry M q = some d) : d.path = q.1 := by
  rcases hg : jsMapGet M q.1 with _ | fromField
  · simp [fieldDiffOfToEntry, hg] at h
    subst h
    rfl
  · by_cases hc : sortStrings q.2.types = sortStrings fromField.types
    · simp [fieldDiffOfToEntry, hg, hc] at h
    · simp [fieldDiffOfToEntry, hg, hc] at h
      subst h
      rfl

theorem fieldDiffOfToEntry_none {M : List (String × FieldStat)}
    {q : String × FieldStat} (ff : FieldStat)
    (hg : jsMapGet M q.1 = some ff)
    (he : sortStrings q.2.types = sortStrings ff.types) :
    fieldDiffOfToEntry M q = none := by
  simp [fieldDiffOfToEntry, hg, he]

theorem fieldDiffOfFromEntry_change {M : List (String × FieldStat)}
    {q : String × FieldStat} {d : FieldDiff}
    (h : fieldDiffOfFromEntry M q = some d) : d.change = FieldChange.removed := by
  by_cases hc : jsMapHas M q.1 = true
  · simp [fieldDiffOfFromEntry, hc] at h
  · simp [fieldDiffOfFromEntry, hc] at h
    subst h
    rfl

/-- C6: if the fields recorded at path `p` in the two field maps have type
lists that are permutations of each other (same elements, different
insertion order), `diffFields` produces no `type_changed` diff at `p`. -/
theorem c6_type_set_order_independence
    (fromFields toFields : List FieldStat) (p : String) (ff tf : FieldStat)
    (h1 : jsMapGet (jsMapOfList (fromFields.map (fun f => (f.path, f)))) p = some ff)
    (h2 : jsMapGet (jsMapOfList (toFields.map (fun f => (f.path, f)))) p = some tf)
    (h3 : tf.types.Perm ff.types) :
    ∀ d ∈ diffFields fromFields toFields, d.path = p →
      d.change ≠ FieldChange.type_changed := by
  intro d hd hdp
  simp only [diffFields, sortFieldDiffs] at hd
  have hd' := (List.mem_insertionSort _).1 hd
  rcases List.mem_append.1 hd' with hmem | hmem
  · obtain ⟨q, hq, hfq⟩ := List.mem_filterMap.1 hmem
    have hqp : q.1 = p := (fieldDiffOfToEntry_path hfq) ▸ hdp
    have hqtf : q.2 = tf := by
      have hmemq : (q.1, q.2) ∈ jsMapOfList (toFields.map (fun f => (f.path, f))) := hq
      rw [hqp] at hmemq
      exact jsMap_nodup_val_eq (jsMapOfList_keys_nodup _) hmemq (jsMapGet_some_mem h2)
    have hnone : fieldDiffOfToEntry
        (jsMapOfList (fromFields.map (fun f => (f.path, f)))) q = none := by
      apply fieldDiffOfToEntry_none ff
      · rw [hqp]; exact h1
      · rw [hqtf]; exact sortStrings_perm h3
    rw [hnone] at hfq
    cases hfq
  · obtain ⟨q, _, hfq⟩ := List.mem_filterMap.1 hmem
    rw [fieldDiffOfFromEntry_change hfq]
    intro hcon
    cases hcon

/-- Witness for C6: concrete fields at path `"a"` whose type lists are the
same two elements in swapped insertion order — no diff of the concrete pair
is a `type_changed` at `"a"`. -/
theorem c6_type_set_order_independence_witness :
    ((diffFields
        [{ path := "a", types := ["string", "number"], optionalRate := 0,
           sampleCount := 0, confidence := 1 }]
        [{ path := "a", types := ["number", "string"], optionalRate := 0,
           sampleCount := 0, confidence := 1 }]).all
      (fun d => !((d.path == "a") && (d.change == FieldChange.type_changed)))) = true := by
  apply List.all_eq_true.2
  intro d hd
  have h := c6_type_set_order_independence
    [{ path := "a", types := ["string", "number"], optionalRate := 0,
       sampleCount := 0, confidence := 1 }]
    [{ path := "a", types := ["number", "string"], optionalRate := 0,
       sampleCount := 0, confidence := 1 }]
    "a"
    { path := "a", types := ["string", "number"], optionalRate := 0,
      sampleCount := 0, confidence := 1 }
    { path := "a", types := ["number", "string"], optionalRate := 0,
      sampleCount := 0, confidence := 1 }
    (by decide) (by decide) (by decide) d hd
  by_cases hdp : d.path = "a"
  · have hne := h hdp
    simp [hdp, hne]
  · simp [hdp]

/-! ## Table-diff uniqueness (C10) -/

theorem jsMapInsert_append {α : Type} (m : List (String × α)) (k : String) (v : α)
    (h : ¬ m.any (fun p => p.1 == k) = true) :
    jsMapInsert m k v = m ++ [(k, v)] := by
  unfold jsMapInsert
  rw [if_neg h]

theorem jsMapOfList_eq_self {α : Type} (l : List (String × α))
    (h : (l.map Prod.fst).Nodup) : jsMapOfList l = l := by
  have main : ∀ (l m : List (String × α)), ((m ++ l).map Prod.fst).Nodup →
      l.foldl (fun m p => jsMapInsert m p.1 p.2) m = m ++ l := by
    intro l
    induction l with
    | nil => intro m _; simp
    | cons hd tl ih =>
      intro m hnd
      have hsplit : (m ++ hd :: tl).map Prod.fst
          = m.map Prod.fst ++ hd.1 :: tl.map Prod.fst := by
        simp
      rw [hsplit] at hnd
      have hnotin : hd.1 ∉ m.map Prod.fst := by
        rcases List.nodup_append.1 hnd with ⟨_, _, hdisj⟩
        intro hmem
        exact hdisj hmem (List.mem_cons_self _ _)
      have hnoany : ¬ m.any (fun p => p.1 == hd.1) = true := by
        intro hany
        obtain ⟨p, hp, hpe⟩ := List.any_eq_true.1 hany
        exact hnotin ((beq_iff_eq.1 hpe) ▸ List.mem_map.2 ⟨p, hp, rfl⟩)
      simp only [List.foldl_cons, jsMapInsert_append m hd.1 hd.2 hnoany]
      have := ih (m ++ [(hd.1, hd.2)]) (by
        simpa [List.append_assoc] using hnd)
      simpa [List.append_assoc] using this
  exact main l [] (by simpa using h)

theorem nodup_keys_filter_length_le_one {α : Type} (L : List (String × α))
    (hnd : (L.map Prod.fst).Nodup) (name : String) :
    (L.filter (fun p => p.1 == name)).length ≤ 1 := by
  induction L with
  | nil => simp
  | cons hd tl ih =>
    have hnd' : hd.1 ∉ tl.map Prod.fst ∧ (tl.map Prod.fst).Nodup := by
      rw [List.map_cons, List.nodup_cons] at hnd
      exact hnd
    by_cases hc : (hd.1 == name) = true
    · have hname : hd.1 = name := beq_iff_eq.1 hc
      have htl : tl.filter (fun p => p.1 == name) = [] := by
        apply List.filter_eq_nil_iff.2
        intro p hp hpe
        apply hnd'.1
        rw [hname, ← beq_iff_eq.1 hpe]
        exact List.mem_map.2 ⟨p, hp, rfl⟩
      simp [List.filter_cons, hc, htl]
    · simp only [List.filter_cons, hc]
      simpa using ih hnd'.2

theorem modifiedTableDiff_some {M : List (String × TableSchema)}
    {p : String × TableSchema} {d : TableDiff}
    (h : modifiedTableDiff M p = some d) :
    d.table = p.1 ∧ d.change = TableChange.modified ∧
    ∃ tb, jsMapGet M p.1 = some tb ∧ diffFields p.2.fields tb.fields ≠ [] := by
  rcases hg : jsMapGet M p.1 with _ | tb
  · simp [modifiedTableDiff, hg] at h
  · by_cases hlen : (diffFields p.2.fields tb.fields).length > 0
    · simp only [modifiedTableDiff, hg, if_pos hlen] at h
      have hd : d =
          { table := p.1, change := TableChange.modified,
            fieldDiffs := diffFields p.2.fields tb.fields } := by
        exact (Option.some_inj.mp h).symm
      subst hd
      exact ⟨rfl, rfl, tb, rfl, List.length_pos.1 hlen⟩
    · simp only [modifiedTableDiff, hg, if_neg hlen] at h
      cases h

theorem jsMapHas_pairs {l : List TableSchema} {name : String} :
    jsMapHas (l.map (fun tb => (tb.table, tb))) name = true
      ↔ name ∈ l.map TableSchema.table := by
  constructor
  · intro h
    obtain ⟨p, hp, hpe⟩ := List.any_eq_true.1 h
    obtain ⟨tb, htb, htbe⟩ := List.mem_map.1 hp
    refine List.mem_map.2 ⟨tb, htb, ?_⟩
    rw [← htbe] at hpe
    exact beq_iff_eq.1 hpe
  · intro h
    obtain ⟨tb, htb, htbe⟩ := List.mem_map.1 h
    exact List.any_eq_true.2 ⟨(tb.table, tb), List.mem_map.2 ⟨tb, htb, rfl⟩, by simp [htbe]⟩

theorem sortTableDiffs_filter_length (L : List TableDiff) (pred : TableDiff → Bool) :
    ((sortTableDiffs L).filter pred).length = (L.filter pred).length :=
  ((List.perm_insertionSort _ L).filter pred).length_eq

theorem mem_sortTableDiffs {L : List TableDiff} {d : TableDiff} :
    d ∈ sortTableDiffs L ↔ d ∈ L :=
  List.mem_insertionSort _

theorem filter_key_of_map_table_le_one {g : (String × TableSchema) → TableDiff}
    (hg : ∀ p, (g p).table = p.1) (L : List (String × TableSchema))
    (hnd : (L.map Prod.fst).Nodup) (pre : (String × TableSchema) → Bool) (name : String) :
    (((L.filter pre).map g).filter (fun d => d.table == name)).length ≤ 1 := by
  rw [List.filter_map, List.length_map]
  have hcong : (L.filter pre).filter ((fun d => d.table == name) ∘ g)
      = (L.filter pre).filter (fun p => p.1 == name) := by
    apply List.filter_congr
    intro p _
    simp [Function.comp, hg p]
  rw [hcong]
  calc ((L.filter pre).filter (fun p => p.1 == name)).length
      ≤ (L.filter (fun p => p.1 == name)).length :=
        List.Sublist.length_le (List.Sublist.filter _ (List.filter_sublist _))
    _ ≤ 1 := nodup_keys_filter_length_le_one L hnd name

theorem filterMap_modified_filter_le_one (Lt L : List (String × TableSchema))
    (hnd : (L.map Prod.fst).Nodup) (name : String) :
    ((L.filterMap (modifiedTableDiff Lt)).filter (fun d => d.table == name)).length ≤ 1 := by
  induction L with
  | nil => simp
  | cons hd tl ih =>
    have hnd' : hd.1 ∉ tl.map Prod.fst ∧ (tl.map Prod.fst).Nodup := by
      rw [List.map_cons, List.nodup_cons] at hnd
      exact hnd
    rw [List.filterMap_cons]
    cases hmd : modifiedTableDiff Lt hd with
    | none => exact ih hnd'.2
    | some d =>
      by_cases hk : (d.table == name) = true
      · have hztl : (tl.filterMap (modifiedTableDiff Lt)).filter
            (fun d => d.table == name) = [] := by
          apply List.filter_eq_nil_iff.2
          intro d' hd' hk'
          obtain ⟨q, hq, hqd⟩ := List.mem_filterMap.1 hd'
          apply hnd'.1
          have hq1 : q.1 = d'.table := ((modifiedTableDiff_some hqd).1).symm
          have hdt : d.table = hd.1 := (modifiedTableDiff_some hmd).1
          rw [← hdt, beq_iff_eq.1 hk, ← beq_iff_eq.1 hk', ← hq1]
          exact List.mem_map.2 ⟨q, hq, rfl⟩
        simp [List.filter_cons, hk, hztl]
      · simp only [List.filter_cons, hk, Bool.false_eq_true, if_false]
        exact ih hnd'.2

/-- C10: with table names unique within each snapshot, every table name
occurs in at most one `TableDiff` of the drift result; a name present in
both snapshots is only ever reported `modified`; and a table present in
both snapshots whose field diff is empty contributes no `TableDiff`. -/
theorem c10_table_diff_uniqueness (f t : SchemaSnapshot)
    (hf : (f.tables.map TableSchema.table).Nodup)
    (ht : (t.tables.map TableSchema.table).Nodup) (name : String) :
    (((computeDrift f t).tableDiffs.filter (fun d => d.table == name)).length ≤ 1)
    ∧ ((name ∈ f.tables.map TableSchema.table) → (name ∈ t.tables.map TableSchema.table) →
        ∀ d ∈ (computeDrift f t).tableDiffs, d.table = name →
          d.change = TableChange.modified)
    ∧ (∀ tb1 ∈ f.tables, ∀ tb2 ∈ t.tables, tb1.table = name → tb2.table = name →
        diffFields tb1.fields tb2.fields = [] →
        ∀ d ∈ (computeDrift f t).tableDiffs, d.table ≠ name) := by
  have hkf : ((f.tables.map (fun tb => (tb.table, tb))).map Prod.fst)
      = f.tables.map TableSchema.table := by
    rw [List.map_map]; rfl
  have hkt : ((t.tables.map (fun tb => (tb.table, tb))).map Prod.fst)
      = t.tables.map TableSchema.table := by
    rw [List.map_map]; rfl
  have hndLf : ((f.tables.map (fun tb => (tb.table, tb))).map Prod.fst).Nodup := by
    rw [hkf]; exact hf
  have hndLt : ((t.tables.map (fun tb => (tb.table, tb))).map Prod.fst).Nodup := by
    rw [hkt]; exact ht
  have hLf := jsMapOfList_eq_self _ hndLf
  have hLt := jsMapOfList_eq_self _ hndLt
  have htd : (computeDrift f t).tableDiffs =
      sortTableDiffs (
        ((t.tables.map (fun tb => (tb.table, tb))).filter
          (fun p => !jsMapHas (f.tables.map (fun tb => (tb.table, tb))) p.1)).map
            addedTableDiff ++
        ((f.tables.map (fun tb => (tb.table, tb))).filter
          (fun p => !jsMapHas (t.tables.map (fun tb => (tb.table, tb))) p.1)).map
            removedTableDiff ++
        (f.tables.map (fun tb => (tb.table, tb))).filterMap
          (modifiedTableDiff (t.tables.map (fun tb => (tb.table, tb))))) := by
    simp only [computeDrift, hLf, hLt]
  rw [htd]
  refine ⟨?_, ?_, ?_⟩
  · -- at most one TableDiff per name
    rw [sortTableDiffs_filter_length, List.filter_append, List.filter_append,
        List.length_append, List.length_append]
    cases hF : jsMapHas (f.tables.map (fun tb => (tb.table, tb))) name with
    | false =>
      have hB0 : (((f.tables.map (fun tb => (tb.table, tb))).filter
          (fun p => !jsMapHas (t.tables.map (fun tb => (tb.table, tb))) p.1)).map
            removedTableDiff).filter (fun d => d.table == name) = [] := by
        apply List.filter_eq_nil_iff.2
        intro d hd hk
        obtain ⟨p, hp, hpd⟩ := List.mem_map.1 hd
        have hp1 : p.1 = name := by
          have : (removedTableDiff p).table = p.1 := rfl
          rw [← beq_iff_eq.1 hk, ← hpd, this]
        have hmem : p ∈ f.tables.map (fun tb => (tb.table, tb)) :=
          List.mem_of_mem_filter hp
        have := jsMapHas_of_mem hmem
        rw [hp1, hF] at this
        cases this
      have hC0 : ((f.tables.map (fun tb => (tb.table, tb))).filterMap
          (modifiedTableDiff (t.tables.map (fun tb => (tb.table, tb))))).filter
            (fun d => d.table == name) = [] := by
        apply List.filter_eq_nil_iff.2
        intro d hd hk
        obtain ⟨q, hq, hqd⟩ := List.mem_filterMap.1 hd
        have hq1 : q.1 = name := by
          rw [← beq_iff_eq.1 hk, (modifiedTableDiff_some hqd).1]
        have := jsMapHas_of_mem hq
        rw [hq1, hF] at this
        cases this
      rw [hB0, hC0]
      simpa using filter_key_of_map_table_le_one (fun _ => rfl) _ hndLt _ name
    | true =>
      have hA0 : (((t.tables.map (fun tb => (tb.table, tb))).filter
          (fun p => !jsMapHas (f.tables.map (fun tb => (tb.table, tb))) p.1)).map
            addedTableDiff).filter (fun d => d.table == name) = [] := by
        apply List.filter_eq_nil_iff.2
        intro d hd hk
        obtain ⟨p, hp, hpd⟩ := List.mem_map.1 hd
        have hp1 : p.1 = name := by
          have : (addedTableDiff p).table = p.1 := rfl
          rw [← beq_iff_eq.1 hk, ← hpd, this]
        have hpre := List.of_mem_filter hp
        rw [hp1, hF] at hpre
        cases hpre
      rw [hA0]
      cases hT : jsMapHas (t.tables.map (fun tb => (tb.table, tb))) name with
      | false =>
        have hC0 : ((f.tables.map (fun tb => (tb.table, tb))).filterMap
            (modifiedTableDiff (t.tables.map (fun tb => (tb.table, tb))))).filter
              (fun d => d.table == name) = [] := by
          apply List.filter_eq_nil_iff.2
          intro d hd hk
          obtain ⟨q, hq, hqd⟩ := List.mem_filterMap.1 hd
          obtain ⟨htab, _, tb, hget, _⟩ := modifiedTableDiff_some hqd
          have hmem := jsMapGet_some_mem hget
          have := jsMapHas_of_mem hmem
          have hq1 : q.1 = name := by rw [← beq_iff_eq.1 hk, htab]
          rw [hq1, hT] at this
          cases this
        rw [hC0]
        simpa using filter_key_of_map_table_le_one (fun _ => rfl) _ hndLf _ name
      | true =>
        have hB0 : (((f.tables.map (fun tb => (tb.table, tb))).filter
            (fun p => !jsMapHas (t.tables.map (fun tb => (tb.table, tb))) p.1)).map
              removedTableDiff).filter (fun d => d.table == name) = [] := by
          apply List.filter_eq_nil_iff.2
          intro d hd hk
          obtain ⟨p, hp, hpd⟩ := List.mem_map.1 hd
          have hp1 : p.1 = name := by
            have : (removedTableDiff p).table = p.1 := rfl
            rw [← beq_iff_eq.1 hk, ← hpd, this]
          have hpre := List.of_mem_filter hp
          rw [hp1, hT] at hpre
          cases hpre
        rw [hB0]
        simpa using filterMap_modified_filter_le_one _ _ hndLf name
  · -- present in both: only "modified"
    intro hmemf hmemt d hd hdt
    have hd' := mem_sortTableDiffs.1 hd
    rcases List.mem_append.1 hd' with hab | hc
    · rcases List.mem_append.1 hab with ha | hb
      · obtain ⟨p, hp, hpd⟩ := List.mem_map.1 ha
        have hp1 : p.1 = name := by
          have : (addedTableDiff p).table = p.1 := rfl
          rw [← hdt, ← hpd, this]
        have hpre := List.of_mem_filter hp
        rw [hp1] at hpre
        rw [jsMapHas_pairs.2 hmemf] at hpre
        cases hpre
      · obtain ⟨p, hp, hpd⟩ := List.mem_map.1 hb
        have hp1 : p.1 = name := by
          have : (removedTableDiff p).table = p.1 := rfl
          rw [← hdt, ← hpd, this]
        have hpre := List.of_mem_filter hp
        rw [hp1] at hpre
        rw [jsMapHas_pairs.2 hmemt] at hpre
        cases hpre
    · obtain ⟨q, _, hqd⟩ := List.mem_filterMap.1 hc
      exact (modifiedTableDiff_some hqd).2.1
  · -- present in both with empty field diff: no TableDiff at all
    intro tb1 htb1 tb2 htb2 he1 he2 hdiff d hd hdt
    have hd' := mem_sortTableDiffs.1 hd
    have hmem1 : (name, tb1) ∈ f.tables.map (fun tb => (tb.table, tb)) :=
      List.mem_map.2 ⟨tb1, htb1, by rw [he1]⟩
    have hmem2 : (name, tb2) ∈ t.tables.map (fun tb => (tb.table, tb)) :=
      List.mem_map.2 ⟨tb2, htb2, by rw [he2]⟩
    rcases List.mem_append.1 hd' with hab | hc
    · rcases List.mem_append.1 hab with ha | hb
      · obtain ⟨p, hp, hpd⟩ := List.mem_map.1 ha
        have hp1 : p.1 = name := by
          have : (addedTableDiff p).table = p.1 := rfl
          rw [← hdt, ← hpd, this]
        have hpre := List.of_mem_filter hp
        rw [hp1, jsMapHas_of_mem hmem1] at hpre
        cases hpre
      · obtain ⟨p, hp, hpd⟩ := List.mem_map.1 hb
        have hp1 : p.1 = name := by
          have : (removedTableDiff p).table = p.1 := rfl
          rw [← hdt, ← hpd, this]
        have hpre := List.of_mem_filter hp
        rw [hp1, jsMapHas_of_mem hmem2] at hpre
        cases hpre
    · obtain ⟨q, hq, hqd⟩ := List.mem_filterMap.1 hc
      obtain ⟨htab, _, tb, hget, hne⟩ := modifiedTableDiff_some hqd
      have hq1 : q.1 = name := by rw [← hdt, htab]
      have hq2 : q.2 = tb1 := by
        have hqmem : (q.1, q.2) ∈ f.tables.map (fun tb => (tb.table, tb)) := hq
        rw [hq1] at hqmem
        exact jsMap_nodup_val_eq hndLf hqmem hmem1
      have htb2' : tb = tb2 := by
        have hget2 : jsMapGet (t.tables.map (fun tb => (tb.table, tb))) name
            = some tb2 := jsMapGet_of_nodup_mem hndLt hmem2
        rw [hq1, hget2] at hget
        exact (Option.some_inj.mp hget).symm
      apply hne
      rw [hq2, htb2']
      exact hdiff

/-- Witness for C10 at a concrete pair of snapshots sharing one table. -/
theorem c10_table_diff_uniqueness_witness :
    ((computeDrift
        { id := "s1", deploymentId := "d", createdAt := 0,
          tables := [{ table := "tasks", fields := [], sampledDocs := 0, inferredAt := 0 }],
          relations := [] }
        { id := "s2", deploymentId := "d", createdAt := 1,
          tables := [{ table := "tasks", fields := [], sampledDocs := 0, inferredAt := 1 }],
          relations := [] }).tableDiffs.filter (fun d => d.table == "tasks")).length ≤ 1 :=
  (c10_table_diff_uniqueness
    { id := "s1", deploymentId := "d", createdAt := 0,
      tables := [{ table := "tasks", fields := [], sampledDocs := 0, inferredAt := 0 }],
      relations := [] }
    { id := "s2", deploymentId := "d", createdAt := 1,
      tables := [{ table := "tasks", fields := [], sampledDocs := 0, inferredAt := 1 }],
      relations := [] }
    (by decide) (by decide) "tasks").1

/-! ## IEEE-754 binary64 rounding

The inferencer computes `optionalRate` and `confidence` with JS number
arithmetic, i.e. in IEEE-754 binary64: every `-` and `/` rounds its exact
result to 53 significand bits, to nearest, ties to even. `fl` models that
rounding on ℚ with an unbounded exponent range: overflow, subnormals,
infinities and NaN are not modelled because the inferencer's quantities
cannot reach them — document counts are exact binary64 integers far below
`2^53` (a JS array holds at most `2^32 - 1` elements) and their ratios lie
in `[0, 1]`. `Math.min`/`Math.max` compare exactly and round nothing. -/

/-- Smallest `k` with `a < 2^(k+1) * b`, i.e. `⌊log₂ (a/b)⌋` for `a ≥ b ≥ 1`.
The fuel `a + 1` passed by `floorLog2` is never exhausted: `2^(k+1) * b > a`
once `k ≥ a`. -/
def upSearchAux : ℕ → ℕ → ℕ → ℕ → ℕ
  | 0, _, _, k => k
  | fuel + 1, a, b, k => if a < 2 ^ (k + 1) * b then k else upSearchAux fuel a b (k + 1)

/-- Smallest `j ≥ 1` with `b ≤ 2^j * a`, i.e. `-⌊log₂ (a/b)⌋` for
`1 ≤ a < b`. The fuel `b + 1` is never exhausted: `2^j * a ≥ b` once `j ≥ b`. -/
def downSearchAux : ℕ → ℕ → ℕ → ℕ → ℕ
  | 0, _, _, j => j
  | fuel + 1, a, b, j => if b ≤ 2 ^ j * a then j else downSearchAux fuel a b (j + 1)

/-- `⌊log₂ (a/b)⌋` for positive naturals. -/
def floorLog2 (a b : ℕ) : ℤ :=
  if b ≤ a then (upSearchAux (a + 1) a b 0 : ℤ)
  else -(downSearchAux (b + 1) a b 1 : ℤ)

/-- Binary64 mantissa and scale of the positive rational `a / b`: the
exponent `e = 52 - ⌊log₂ (a/b)⌋` scales `a / b` into `[2^52, 2^53)`, and the
scaled value `A / B` is rounded to the nearest integer `m`, ties to even
(`r2` is twice the remainder, compared against the denominator). The
rounded value of `a / b` is `m / 2^e`. -/
def flScaled (a b : ℕ) : ℕ × ℤ :=
  let e : ℤ := 52 - floorLog2 a b
  let A := if 0 ≤ e then a * 2 ^ e.toNat else a
  let B := if 0 ≤ e then b else b * 2 ^ (-e).toNat
  let m0 := A / B
  let r2 := 2 * (A % B)
  let m :=
    if r2 < B then m0
    else if B < r2 then m0 + 1
    else if m0 % 2 = 0 then m0 else m0 + 1
  (m, e)

/-- IEEE-754 binary64 rounding of a rational: round to nearest, ties to
even, 53-bit significand (normal range; see the section comment). -/
def fl (q : ℚ) : ℚ :=
  if q = 0 then 0
  else
    let me := flScaled q.num.natAbs q.den
    let mag : ℚ :=
      if 0 ≤ me.2 then (me.1 : ℚ) / ((2 ^ me.2.toNat : ℕ) : ℚ)
      else (me.1 : ℚ) * ((2 ^ (-me.2).toNat : ℕ) : ℚ)
    if q < 0 then -mag else mag

/-- Binary64 subtraction (JS `-`): exact difference, then rounded. -/
def fsub (x y : ℚ) : ℚ := fl (x - y)

/-- Binary64 division (JS `/`): exact quotient, then rounded. -/
def fdiv (x y : ℚ) : ℚ := fl (x / y)

/-! ## Document type inferencer (`inferSchemaFromDocs`) -/

/-- JSON-like document values handed to the inferencer (`unknown` in TS). -/
inductive JsonValue where
  | null
  | undef
  | str (s : String)
  | num (q : ℚ)
  | bool (b : Bool)
  | arr (elems : List JsonValue)
  | obj (entries : List (String × JsonValue))

/-- `getTypeName`: JS-level type tag of a value. -/
def getTypeName : JsonValue → String
  | .null => "null"
  | .undef => "undefined"
  | .arr _ => "array"
  | .str _ => "string"
  | .num _ => "number"
  | .bool _ => "boolean"
  | .obj _ => "object"

/-- Accumulator entry of the inferencer's field map. -/
structure FieldAcc where
  types : List String
  presentCount : Nat
deriving DecidableEq, Repr

/-- The map-update block of `flattenDoc`: fetch-or-default, add the type tag
to the type set, bump the presence count, write back. -/
def recordValue (path : String) (v : JsonValue) (result : List (String × FieldAcc)) :
    List (String × FieldAcc) :=
  let existing := (jsMapGet result path).getD { types := [], presentCount := 0 }
  jsMapInsert result path
    { types := jsSetAdd existing.types (getTypeName v),
      presentCount := existing.presentCount + 1 }

/-- `value !== null && value !== undefined && typeof value === "object" &&
!Array.isArray(value)`. -/
def isNestedObject : JsonValue → Bool
  | .obj _ => true
  | _ => false

mutual

/-- `flattenDoc` from the inferencer: record dot-delimited paths of a value.
`null`/`undefined` are skipped; a non-object value is recorded at
`prefix || "(root)"`; an object is walked entry by entry. -/
def flattenDoc (v : JsonValue) (pre : String)
    (result : List (String × FieldAcc)) : List (String × FieldAcc) :=
  match v with
  | .null => result
  | .undef => result
  | .obj entries => flattenEntries entries pre result
  | other => recordValue (if pre = "" then "(root)" else pre) other result
termination_by structural v

/-- The `for (const [key, value] of Object.entries(obj))` loop of
`flattenDoc`: recurse into nested objects, then record the field itself. -/
def flattenEntries (entries : List (String × JsonValue)) (pre : String)
    (result : List (String × FieldAcc)) : List (String × FieldAcc) :=
  match entries with
  | [] => result
  | (key, value) :: rest =>
    let path := if pre = "" then key else pre ++ "." ++ key
    let r1 := if isNestedObject value then flattenDoc value path result else result
    let r2 := recordValue path value r1
    flattenEntries rest pre r2
termination_by structural entries

end

/-- `isIdLikeField`: leaf segment ends in `Id` or `_id` and `string` was
observed among the types. -/
def isIdLikeField (path : String) (types : List String) : Bool :=
  let leaf := ((path.splitOn ".").getLast?).getD path
  (leaf.endsWith "Id" || leaf.endsWith "_id") && types.any (fun t => t == "string")

/-- `guessTargetTable`: strip `Id$`, `_id$`, `^_`, require length ≥ 2,
naively pluralize. -/
def guessTargetTable (fieldPath : String) : Option String :=
  let leaf := ((fieldPath.splitOn ".").getLast?).getD fieldPath
  let s1 := if leaf.endsWith "Id" then leaf.dropRight 2 else leaf
  let s2 := if s1.endsWith "_id" then s1.dropRight 3 else s1
  let cleaned := if s2.startsWith "_" then s2.drop 1 else s2
  if cleaned.length < 2 then none
  else if !cleaned.endsWith "s" then some (cleaned ++ "s")
  else some cleaned

/-- The field sort comparator of the inferencer: `_id` first,
`_creationTime` second, then alphabetical by path. -/
def fieldStatLE (a b : FieldStat) : Bool :=
  if a.path = "_id" then true
  else if b.path = "_id" then false
  else if a.path = "_creationTime" then true
  else if b.path = "_creationTime" then false
  else decide (a.path ≤ b.path)

/-- Stable sort of inferred fields by `fieldStatLE`. -/
def sortFields (l : List FieldStat) : List FieldStat :=
  List.insertionSort (fun a b => fieldStatLE a b = true) l

/-- `inferSchemaFromDocs` from the inferencer (`Date.now()` passed as
`now`): flatten all sampled documents into a field map, derive the
statistics of every path, detect id-like relation candidates, sort. The
statistics are computed in binary64: `1 - presentCount / total` rounds at
the division and at the subtraction; `Math.max`/`Math.min` are exact; the
JS literal `0.6` denotes the double nearest `3/5`, written `fl (3/5)`. -/
def inferSchemaFromDocs (tableName : String)
    (docs : List (List (String × JsonValue))) (now : Nat) :
    TableSchema × List RelationEdge :=
  if docs.length = 0 then
    ({ table := tableName, fields := [], sampledDocs := 0, inferredAt := now }, [])
  else
    let fieldMap := docs.foldl (fun m doc => flattenDoc (.obj doc) "" m) []
    let total := docs.length
    let fields := fieldMap.map (fun pe =>
      { path := pe.1, types := pe.2.types,
        optionalRate := fsub 1 (fdiv (pe.2.presentCount : ℚ) (total : ℚ)),
        sampleCount := pe.2.presentCount,
        confidence := min (fdiv (pe.2.presentCount : ℚ) (max ((total : ℚ)) 10)) 1 })
    let relations := fieldMap.filterMap (fun pe =>
      if isIdLikeField pe.1 pe.2.types then
        match guessTargetTable pe.1 with
        | some targetTable =>
          some { fromTable := tableName, fromFieldPath := pe.1,
                 toTable := targetTable, confidence := fl (3/5),
                 source := RelSource.inferred }
        | none => none
      else none)
    ({ table := tableName, fields := sortFields fields,
       sampledDocs := total, inferredAt := now },
     relations)

/-- Ten sampled documents, seven of which carry the field `"x"`. -/
def c3ExampleDocs : List (List (String × JsonValue)) :=
  [[("x", JsonValue.str "a")], [("x", JsonValue.str "a")], [("x", JsonValue.str "a")],
   [("x", JsonValue.str "a")], [("x", JsonValue.str "a")], [("x", JsonValue.str "a")],
   [("x", JsonValue.str "a")], [], [], []]

/-- `fl` on a positive fraction in lowest terms is assembled from
`flScaled` (stated for nonnegative scale, which covers every value the
inferencer produces). -/
theorem fl_pos_eq (a b : ℕ) (ha : 0 < a) (hb : 0 < b) (hcop : Nat.Coprime a b)
    (m k : ℕ) (hme : flScaled a b = (m, (k : ℤ))) :
    fl ((a : ℚ) / (b : ℚ)) = (m : ℚ) / ((2 ^ k : ℕ) : ℚ) := by
  have hb0 : (0 : ℤ) < (b : ℤ) := by exact_mod_cast hb
  have hnum : (((a : ℤ) : ℚ) / ((b : ℤ) : ℚ)).num = (a : ℤ) :=
    Rat.num_div_eq_of_coprime hb0 (by simpa using hcop)
  have hden : ((((a : ℤ) : ℚ) / ((b : ℤ) : ℚ)).den : ℤ) = (b : ℤ) :=
    Rat.den_div_eq_of_coprime hb0 (by simpa using hcop)
  have hca : (((a : ℤ) : ℚ)) = (a : ℚ) := by push_cast; ring
  have hcb : (((b : ℤ) : ℚ)) = (b : ℚ) := by push_cast; ring
  rw [hca, hcb] at hnum hden
  have hden' : ((a : ℚ) / (b : ℚ)).den = b := by exact_mod_cast hden
  have hq : (0:ℚ) < (a : ℚ) / (b : ℚ) :=
    div_pos (by exact_mod_cast ha) (by exact_mod_cast hb)
  simp only [fl]
  rw [if_neg hq.ne', hnum, hden']
  simp only [Int.natAbs_ofNat]
  rw [hme]
  rw [if_neg (not_lt.2 hq.le)]
  rw [if_pos (show (0:ℤ) ≤ ((k:ℕ):ℤ) by exact_mod_cast Nat.zero_le k)]
  norm_num

/-- The double nearest `0.7` is
`6305039478318694 / 2^53 = 0.6999999999999999555910790149937383830547…`. -/
theorem fl_seven_tenths : fl ((7 : ℚ) / 10) = 6305039478318694 / 2 ^ 53 := by
  have heq : (7 : ℚ) / 10 = ((7 : ℕ) : ℚ) / ((10 : ℕ) : ℚ) := by norm_num
  have h := fl_pos_eq 7 10 (by norm_num) (by norm_num) (by decide)
    6305039478318694 53 (by decide)
  rw [heq, h]
  norm_num

/-- `7 / 10` in binary64 is the double written `0.7`. -/
theorem fdiv_seven_ten :
    fdiv (7 : ℚ) (10 : ℚ) = 6305039478318694 / 2 ^ 53 := by
  unfold fdiv
  exact fl_seven_tenths

/-- `1 - 0.7` in binary64 is `5404319552844596 / 2^54 =
0.3000000000000000444089209850062616169452667236328125`, the value printed
`0.30000000000000004` — the subtraction is exact here, and the result is
one ulp above the double nearest `0.3`. -/
theorem fsub_one_d7 :
    fsub 1 ((6305039478318694 : ℚ) / 2 ^ 53) = 5404319552844596 / 2 ^ 54 := by
  have heq : (1 : ℚ) - 6305039478318694 / 2 ^ 53
      = ((1351079888211149 : ℕ) : ℚ) / ((4503599627370496 : ℕ) : ℚ) := by norm_num
  have h := fl_pos_eq 1351079888211149 4503599627370496 (by norm_num) (by norm_num)
    (by decide) 5404319552844596 54 (by decide)
  rw [fsub, heq, h]
  norm_num

/-- The double nearest `0.3` is `5404319552844595 / 2^54`. -/
theorem fl_three_tenths : fl ((3 : ℚ) / 10) = 5404319552844595 / 2 ^ 54 := by
  have heq : (3 : ℚ) / 10 = ((3 : ℕ) : ℚ) / ((10 : ℕ) : ℚ) := by norm_num
  have h := fl_pos_eq 3 10 (by norm_num) (by norm_num) (by decide)
    5404319552844595 54 (by decide)
  rw [heq, h]
  norm_num

/-- The single field stat the inferencer produces on the 7-of-10 sample,
with its binary64 `optionalRate` and `confidence` spelled as dyadic
rationals. -/
theorem c3_concrete_map :
    (inferSchemaFromDocs "tasks" c3ExampleDocs 0).1.fields.map
        (fun fs => (fs.path, fs.optionalRate, fs.confidence))
      = [("x", 5404319552844596 / 2 ^ 54, 6305039478318694 / 2 ^ 53)] := by
  have hfm : (c3ExampleDocs.foldl (fun m doc => flattenDoc (.obj doc) "" m) [])
      = [("x", { types := ["string"], presentCount := 7 })] := by rfl
  have hlen : c3ExampleDocs.length = 10 := rfl
  simp only [inferSchemaFromDocs, hlen, hfm]
  rw [if_neg (show ¬((10 : Nat) = 0) by norm_num)]
  simp only [sortFields, List.insertionSort, List.orderedInsert,
    List.map_cons, List.map_nil]
  rw [show ((7 : ℕ) : ℚ) = (7 : ℚ) by norm_num,
      show ((10 : ℕ) : ℚ) = (10 : ℚ) by norm_num]
  rw [max_self, fdiv_seven_ten, fsub_one_d7, min_eq_left (by norm_num)]

/-- C3 counterexample: on the 7-of-10 sample the program's `optionalRate`
is the binary64 value `5404319552844596 / 2^54` (printed
`0.30000000000000004`), which is neither the rational `3/10` nor the double
nearest `0.3` — the claim's "optionalRate equals 0.3 exactly" is false of
the code under either reading of `0.3`. -/
theorem c3_optionality_bookkeeping_counterexample :
    ((inferSchemaFromDocs "tasks" c3ExampleDocs 0).1.fields.map
        (fun fs => (fs.path, fs.optionalRate, fs.confidence))
      = [("x", 5404319552844596 / 2 ^ 54, 6305039478318694 / 2 ^ 53)]) ∧
    ((5404319552844596 : ℚ) / 2 ^ 54 ≠ 3 / 10) ∧
    ((5404319552844596 : ℚ) / 2 ^ 54 ≠ fl (3 / 10)) := by
  refine ⟨c3_concrete_map, by norm_num, ?_⟩
  rw [fl_three_tenths]
  norm_num

/-- C3 (amended): every produced `FieldStat` satisfies
`optionalRate = 1 ⊖ (presentCount ⊘ totalDocuments)` and
`confidence = min(presentCount ⊘ max(totalDocuments, 10), 1)` where `⊖`/`⊘`
are binary64 subtraction and division; in particular, for a field present
in 7 of 10 sampled documents, `confidence` is exactly the double `0.7`
(so `confidence === 0.7` holds) while `optionalRate` is one ulp above the
double nearest `0.3` — the value printed `0.30000000000000004`, not `0.3`. -/
theorem c3_optionality_bookkeeping (tableName : String)
    (docs : List (List (String × JsonValue))) (now : Nat) (h : docs ≠ []) :
    (∀ fs ∈ (inferSchemaFromDocs tableName docs now).1.fields,
        fs.optionalRate = fsub 1 (fdiv (fs.sampleCount : ℚ) (docs.length : ℚ)) ∧
        fs.confidence = min (fdiv (fs.sampleCount : ℚ) (max ((docs.length : ℚ)) 10)) 1) ∧
    ((inferSchemaFromDocs "tasks" c3ExampleDocs 0).1.fields.map
        (fun fs => (fs.path, fs.optionalRate, fs.confidence))
      = [("x", fl (3 / 10) + 1 / 2 ^ 54, fl (7 / 10))]) := by
  constructor
  · intro fs hfs
    have hlen : ¬(docs.length = 0) := by
      intro hc
      exact h (List.length_eq_zero.1 hc)
    simp only [inferSchemaFromDocs, if_neg hlen, sortFields] at hfs
    have hfs2 := (List.mem_insertionSort _).1 hfs
    obtain ⟨pe, _, hpe⟩ := List.mem_map.1 hfs2
    rw [← hpe]
    exact ⟨rfl, rfl⟩
  · rw [c3_concrete_map, fl_three_tenths, fl_seven_tenths]
    norm_num

/-- Witness for C3: the quantified binary64 bookkeeping law applied to the
concrete 7-of-10 sample. -/
theorem c3_optionality_bookkeeping_witness :
    ((inferSchemaFromDocs "tasks" c3ExampleDocs 0).1.fields.map
        (fun fs => (fs.path, fs.optionalRate, fs.confidence))
      = [("x", fl (3 / 10) + 1 / 2 ^ 54, fl (7 / 10))]) :=
  (c3_optionality_bookkeeping "tasks" c3ExampleDocs 0
    (by unfold c3ExampleDocs; exact List.cons_ne_nil _ _)).2

/-! ## Validator resolver (`resolveValidatorType` in `schemaParser.ts`)

The regex fragments of the parser are compiled to character-list scanners.
JS regex `\w` is `[A-Za-z0-9_]`; `\s` is modelled by its ASCII members. -/

def isWordChar (c : Char) : Bool :=
  (decide ('a' ≤ c) && decide (c ≤ 'z')) || (decide ('A' ≤ c) && decide (c ≤ 'Z'))
    || (decide ('0' ≤ c) && decide (c ≤ '9')) || c == '_'

def isJsWs (c : Char) : Bool :=
  c == ' ' || c == '\t' || c == '\n' || c == '\r' || c == '\x0b' || c == '\x0c'

/-- `.replace(/["']/g, "")`: drop every double or single quote. -/
def stripQuotes (s : String) : String :=
  String.mk (s.data.filter (fun c => !(c == '"' || c == '\'')))

/-- Try the inner-validator regex `v\.(\w+)\s*\(([^)]*)\)` at the head of
`cs`, returning (validator name, argument body). The greedy `[^)]*` followed
by `\)` matches exactly the characters before the first `)`. -/
def tryInnerMatch (cs : List Char) : Option (String × String) :=
  match cs with
  | c1 :: c2 :: rest =>
    if c1 == 'v' && c2 == '.' then
      let w := rest.takeWhile isWordChar
      let rest1 := rest.dropWhile isWordChar
      if w.isEmpty then none
      else
        let rest2 := rest1.dropWhile isJsWs
        match rest2 with
        | '(' :: rest3 =>
          let body := rest3.takeWhile (fun c => !(c == ')'))
          let rest4 := rest3.dropWhile (fun c => !(c == ')'))
          match rest4 with
          | ')' :: _ => some (String.mk w, String.mk body)
          | _ => none
        | _ => none
    else none
  | _ => none

/-- Leftmost match of the inner-validator regex (JS `String.match`). -/
def findInnerMatch : List Char → Option (String × String)
  | [] => none
  | c :: rest =>
    match tryInnerMatch (c :: rest) with
    | some r => some r
    | none => findInnerMatch rest

/-- `validatorArg.match(/v\.(\w+)\s*\(([^)]*)\)/)` of the `optional` case. -/
def matchInner (s : String) : Option (String × String) :=
  findInnerMatch s.data

/-- Fueled body of `resolveValidatorType`. The recursion of the `optional`
case goes to the captured argument of an inner `v.<name>(...)` occurrence,
which is strictly shorter than the text it was found in (the match consumes
at least `v`, `.`, one word character, `(` and `)` around it), so the fuel
`validatorArg.length + 1` used by `resolveValidatorType` is never exhausted;
the fuel-zero branch is unreachable. -/
def resolveValidatorTypeAux : Nat → String → String → List String
  | 0, validatorType, _ => [validatorType]
  | Nat.succ fuel, validatorType, validatorArg =>
    match validatorType with
    | "string" => ["string"]
    | "number" => ["number"]
    | "float64" => ["number"]
    | "int64" => ["number"]
    | "boolean" => ["boolean"]
    | "id" => ["Id<" ++ stripQuotes validatorArg ++ ">"]
    | "array" => ["array"]
    | "object" => ["object"]
    | "union" => ["union"]
    | "literal" => ["\"" ++ stripQuotes validatorArg ++ "\""]
    | "optional" =>
      match matchInner validatorArg with
      | some (innerName, innerArg) => resolveValidatorTypeAux fuel innerName innerArg
      | none => ["unknown?"]
    | "null_" => ["null"]
    | "bytes" => ["bytes"]
    | "any" => ["any"]
    | _ => [validatorType]

/-- `resolveValidatorType` from `schemaParser.ts`. -/
def resolveValidatorType (validatorType validatorArg : String) : List String :=
  resolveValidatorTypeAux (validatorArg.length + 1) validatorType validatorArg

/-- C8: resolving a literal validator with argument `"todo"` yields the type
name `"todo"` exactly — the argument's quote characters are stripped and the
value is preserved, re-quoted as its own type name. -/
theorem c8_literal_validator_round_trip :
    resolveValidatorType "literal" "\"todo\"" = ["\"todo\""] := by decide

/-! ## Index coverage analyzer (rule evaluation) -/

inductive Severity where
  | high
  | medium
  | low
deriving DecidableEq, Repr

structure IndexCoverageIssue where
  functionPath : String
  table : String
  severity : Severity
  message : String
  suggestedIndex : Option String
deriving DecidableEq, Repr

/-- A query usage extracted from a `ctx.db.query("table")` chain. -/
structure QueryUsage where
  filePath : String
  line : Nat
  tableName : String
  indexName : Option String
  hasCollect : Bool
  hasTake : Bool
  hasFirst : Bool
  hasFilter : Bool
  rangeFieldCount : Nat
deriving DecidableEq, Repr

/-- `buildIndexMap`: group known indexes by table, preserving order. -/
def buildIndexMap (indexes : List IndexDefinition) :
    List (String × List IndexDefinition) :=
  indexes.foldl (fun map idx =>
    jsMapInsert map idx.table (((jsMapGet map idx.table).getD []) ++ [idx])) []

/-- `evaluateUsage`: the four coverage rules. Rules 1 and 2 return early;
rules 3 and 4 apply independently. The `tableIndexes.length > 0` ternary of
rule 1 is written as a match on the list. -/
def evaluateUsage (usage : QueryUsage)
    (indexMap : List (String × List IndexDefinition)) : List IndexCoverageIssue :=
  let tableIndexes := (jsMapGet indexMap usage.tableName).getD []
  match usage.indexName with
  | none =>
    if usage.hasCollect then
      [{ functionPath := usage.filePath ++ ":" ++ toString usage.line,
         table := usage.tableName, severity := Severity.high,
         message := "Full table scan: db.query(\"" ++ usage.tableName
           ++ "\").collect() without an index. This reads every document.",
         suggestedIndex := some (match tableIndexes with
           | [] => "Add an index to \"" ++ usage.tableName
               ++ "\" for the fields being queried."
           | idx :: _ => "Consider .withIndex(\"" ++ idx.name ++ "\")") }]
    else if usage.hasFilter then
      [{ functionPath := usage.filePath ++ ":" ++ toString usage.line,
         table := usage.tableName, severity := Severity.medium,
         message := "Query uses .filter() without .withIndex(). Filter runs in-memory after scanning.",
         suggestedIndex := some "Move filter conditions into a .withIndex() for server-side filtering." }]
    else []
  | some idxName =>
    match tableIndexes.find? (fun idx => idx.name == idxName) with
    | none =>
      [{ functionPath := usage.filePath ++ ":" ++ toString usage.line,
         table := usage.tableName, severity := Severity.high,
         message := "Index \"" ++ idxName ++ "\" referenced but not defined on table \""
           ++ usage.tableName ++ "\".",
         suggestedIndex := some ("Define .index(\"" ++ idxName ++ "\", [...]) in schema.ts.") }]
    | some _ =>
      (if usage.hasCollect && usage.rangeFieldCount == 0 then
        [{ functionPath := usage.filePath ++ ":" ++ toString usage.line,
           table := usage.tableName, severity := Severity.medium,
           message := "Query uses .withIndex(\"" ++ idxName
             ++ "\") but no range constraints. This scans the full index.",
           suggestedIndex := some "Add .eq(), .lt(), .gt() etc. in the index range callback." }]
      else []) ++
      (if usage.hasFilter then
        [{ functionPath := usage.filePath ++ ":" ++ toString usage.line,
           table := usage.tableName, severity := Severity.low,
           message := "Query uses .filter() after .withIndex(\"" ++ idxName
             ++ "\"). Consider extending the index to cover filter fields.",
           suggestedIndex := none }]
      else [])

/-- The spec's example index: `by_project` on `tasks`. -/
def byProjectIndex : IndexDefinition :=
  { table := "tasks", name := "by_project",
    fields := ["projectId", "status"], type := IndexType.by_field }

/-- C4: a usage referencing an index name absent from the known indexes of
its table yields exactly the high-severity "not defined" issue, regardless
of every other chain property — the remaining rules are short-circuited. -/
theorem c4_unknown_index_short_circuits (usage : QueryUsage)
    (indexMap : List (String × List IndexDefinition)) (n : String)
    (h1 : usage.indexName = some n)
    (h2 : ∀ idx ∈ (jsMapGet indexMap usage.tableName).getD [], idx.name ≠ n) :
    evaluateUsage usage indexMap =
      [{ functionPath := usage.filePath ++ ":" ++ toString usage.line,
         table := usage.tableName, severity := Severity.high,
         message := "Index \"" ++ n ++ "\" referenced but not defined on table \""
           ++ usage.tableName ++ "\".",
         suggestedIndex := some ("Define .index(\"" ++ n ++ "\", [...]) in schema.ts.") }] := by
  have hfind : ((jsMapGet indexMap usage.tableName).getD []).find?
      (fun idx => idx.name == n) = none := by
    apply List.find?_eq_none.2
    intro idx hidx
    simpa using h2 idx hidx
  simp only [evaluateUsage, h1, hfind]

/-- Witness for C4: the spec's `by_due_date` example against the known
`by_project` index, with other chain properties set arbitrarily. -/
theorem c4_unknown_index_short_circuits_witness :
    evaluateUsage
      { filePath := "convex/tasks.ts", line := 7, tableName := "tasks",
        indexName := some "by_due_date", hasCollect := true, hasTake := true,
        hasFirst := true, hasFilter := true, rangeFieldCount := 2 }
      (buildIndexMap [byProjectIndex]) =
      [{ functionPath := "convex/tasks.ts:7", table := "tasks", severity := Severity.high,
         message := "Index \"by_due_date\" referenced but not defined on table \"tasks\".",
         suggestedIndex := some "Define .index(\"by_due_date\", [...]) in schema.ts." }] :=
  c4_unknown_index_short_circuits _ _ "by_due_date" rfl (by decide)

/-- C5: a usage with no index referenced and a `collect` terminal yields
exactly one high-severity full-table-scan issue naming the table, suggesting
the first known index of the table when one exists. -/
theorem c5_full_table_scan_rule (usage : QueryUsage)
    (indexMap : List (String × List IndexDefinition))
    (h1 : usage.indexName = none) (h2 : usage.hasCollect = true) :
    evaluateUsage usage indexMap =
      [{ functionPath := usage.filePath ++ ":" ++ toString usage.line,
         table := usage.tableName, severity := Severity.high,
         message := "Full table scan: db.query(\"" ++ usage.tableName
           ++ "\").collect() without an index. This reads every document.",
         suggestedIndex := some (match (jsMapGet indexMap usage.tableName).getD [] with
           | [] => "Add an index to \"" ++ usage.tableName
               ++ "\" for the fields being queried."
           | idx :: _ => "Consider .withIndex(\"" ++ idx.name ++ "\")") }] := by
  simp only [evaluateUsage, h1, h2, if_true]

/-- Witness for C5: the spec's example — one known index `by_project` on
`tasks`, a usage with no `withIndex` and a `collect` terminal. -/
theorem c5_full_table_scan_rule_witness :
    evaluateUsage
      { filePath := "convex/tasks.ts", line := 12, tableName := "tasks",
        indexName := none, hasCollect := true, hasTake := false,
        hasFirst := false, hasFilter := false, rangeFieldCount := 0 }
      (buildIndexMap [byProjectIndex]) =
      [{ functionPath := "convex/tasks.ts:12", table := "tasks", severity := Severity.high,
         message := "Full table scan: db.query(\"tasks\").collect() without an index. This reads every document.",
         suggestedIndex := some "Consider .withIndex(\"by_project\")" }] :=
  c5_full_table_scan_rule _ _ rfl rfl

/-! ## Schema definition parser (`parseSourceFile` in `schemaParser.ts`)

Each regex of the parser is compiled to a character scanner with the exact
leftmost-match, ordered-alternation and greedy semantics of the JS engine.
Loops over `exec` with the `g` flag are modelled by `execScan`: try a match
at every position, emit the capture, resume after the matched text. -/

/-- Match a literal character sequence, returning the rest. -/
def matchLit : List Char → List Char → Option (List Char)
  | [], cs => some cs
  | l :: ls, c :: cs => if c == l then matchLit ls cs else none
  | _ :: _, [] => none

/-- `\s*`. -/
def skipWs (cs : List Char) : List Char :=
  cs.dropWhile isJsWs

/-- `\s+`. -/
def matchWs1 : List Char → Option (List Char)
  | [] => none
  | c :: rest => if isJsWs c then some (rest.dropWhile isJsWs) else none

/-- `(\w+)` (greedy, at least one character), returning capture and rest. -/
def matchWord (cs : List Char) : Option (List Char × List Char) :=
  let w := cs.takeWhile isWordChar
  if w.isEmpty then none else some (w, cs.dropWhile isWordChar)

def isQuote (c : Char) : Bool :=
  c == '"' || c == '\''

def openBrace : Char := Char.ofNat 123

def closeBrace : Char := Char.ofNat 125

/-- Fueled global-`exec` loop: try a match at every position, emit the
capture, continue right after the matched text (at least one character
forward, as `exec` with `g` does). Every step consumes at least one
character, so the fuel `cs.length + 1` used by `execScan` is never
exhausted; the fuel-zero branch is unreachable. -/
def execScanAux {α : Type} (tryAt : List Char → Option (α × Nat)) :
    Nat → List Char → List α
  | 0, _ => []
  | _ + 1, [] => []
  | fuel + 1, c :: rest =>
    match tryAt (c :: rest) with
    | some (a, len) => a :: execScanAux tryAt fuel ((c :: rest).drop (max len 1))
    | none => execScanAux tryAt fuel rest

def execScan {α : Type} (tryAt : List Char → Option (α × Nat)) (cs : List Char) :
    List α :=
  execScanAux tryAt (cs.length + 1) cs

/-- `execScan` variant that also records the match index, for
`tableMatch.index`. -/
def execScanIdxAux {α : Type} (tryAt : List Char → Option (α × Nat)) :
    Nat → Nat → List Char → List (α × Nat)
  | 0, _, _ => []
  | _ + 1, _, [] => []
  | fuel + 1, i, c :: rest =>
    match tryAt (c :: rest) with
    | some (a, len) =>
      (a, i) :: execScanIdxAux tryAt fuel (i + max len 1) ((c :: rest).drop (max len 1))
    | none => execScanIdxAux tryAt fuel (i + 1) rest

def execScanIdx {α : Type} (tryAt : List Char → Option (α × Nat)) (cs : List Char) :
    List (α × Nat) :=
  execScanIdxAux tryAt (cs.length + 1) 0 cs

/-- The lazy `([\s\S]*?)\}\s*\)` tail of the table pattern: scan to the
first `}` that is followed by `\s*` and `)`; a `}` not so followed stays in
the lazy group. Returns (group, rest after the `)`). -/
def findCloseBrace : List Char → Option (List Char × List Char)
  | [] => none
  | c :: rest =>
    if c == closeBrace then
      match skipWs rest with
      | ')' :: r3 => some ([], r3)
      | _ =>
        match findCloseBrace rest with
        | some (b, r) => some (c :: b, r)
        | none => none
    else
      match findCloseBrace rest with
      | some (b, r) => some (c :: b, r)
      | none => none

/-- First alternative of the table pattern: `(\w+)\s*:\s*defineTable`. -/
def tryTableAlt1 (cs : List Char) : Option (String × List Char) :=
  match matchWord cs with
  | none => none
  | some (w, r1) =>
    match skipWs r1 with
    | ':' :: r2 =>
      match matchLit "defineTable".data (skipWs r2) with
      | some r3 => some (String.mk w, r3)
      | none => none
    | _ => none

/-- Second alternative: `export\s+const\s+(\w+)\s*=\s*defineTable`. -/
def tryTableAlt2 (cs : List Char) : Option (String × List Char) :=
  match matchLit "export".data cs with
  | none => none
  | some r1 =>
    match matchWs1 r1 with
    | none => none
    | some r2 =>
      match matchLit "const".data r2 with
      | none => none
      | some r3 =>
        match matchWs1 r3 with
        | none => none
        | some r4 =>
          match matchWord r4 with
          | none => none
          | some (w, r5) =>
            match skipWs r5 with
            | '=' :: r6 =>
              match matchLit "defineTable".data (skipWs r6) with
              | some r7 => some (String.mk w, r7)
              | none => none
            | _ => none

/-- The whole table pattern at one position: either alternative, then
`\s*\(\s*\{`, then the lazy field block up to `\}\s*\)`. Returns
((table name, field block), match length). -/
def tryTableMatchAt (cs : List Char) : Option ((String × List Char) × Nat) :=
  let alt :=
    match tryTableAlt1 cs with
    | some r => some r
    | none => tryTableAlt2 cs
  match alt with
  | none => none
  | some (name, r1) =>
    match skipWs r1 with
    | '(' :: r2 =>
      match skipWs r2 with
      | ob :: r3 =>
        if ob == openBrace then
          match findCloseBrace r3 with
          | some (body, r4) => some ((name, body), cs.length - r4.length)
          | none => none
        else none
      | [] => none
    | _ => none

/-- JS `String.prototype.trim`. -/
def trimString (s : String) : String :=
  String.mk (((s.data.dropWhile isJsWs).reverse.dropWhile isJsWs).reverse)

/-- `.replace(/Validator$/, "")`: strip one trailing `Validator`. -/
def stripValidatorSuffix (s : String) : String :=
  if s.endsWith "Validator" then s.dropRight 9 else s

/-- `largest k ≥ 1` such that `pat` occurs at offset `k` of `w` (greedy
`\w+` backtracks from the longest prefix). -/
def lastOccurrenceFrom1 (pat w : List Char) : Option Nat :=
  ((List.range (w.length + 1)).filter
    (fun k => decide (1 ≤ k) && pat.isPrefixOf (w.drop k))).getLast?

/-- Does `pat` occur at any offset `k ≥ 1` of `w`? -/
def containsFrom1 (pat w : List Char) : Bool :=
  (List.range (w.length + 1)).any
    (fun k => decide (1 ≤ k) && pat.isPrefixOf (w.drop k))

/-- The custom-validator alternatives
`(\w+Validator|\w+Status\w*|\w+Type\w*|\w+Role\w*)` applied to the maximal
word `w` at the current position, in the engine's order. `\w+Validator`
consumes exactly up to the end of the (rightmost) `Validator`; the
`\w+X\w*` alternatives consume the whole word. -/
def matchCustomValidator (w : List Char) : Option (List Char) :=
  match lastOccurrenceFrom1 "Validator".data w with
  | some k => some (w.take (k + 9))
  | none =>
    if containsFrom1 "Status".data w then some w
    else if containsFrom1 "Type".data w then some w
    else if containsFrom1 "Role".data w then some w
    else none

/-- The field pattern
`(\w+)\s*:\s*(?:v\.(\w+)\s*\(([^)]*(?:\([^)]*\))*[^)]*)\)|(\w+Validator|\w+Status\w*|\w+Type\w*|\w+Role\w*))`
at one position, returning the produced `FieldStat` and the match length.
In the first branch the argument group, being greedy with a trailing `\)`,
captures exactly the characters before the first `)`. -/
def tryFieldMatchAt (cs : List Char) : Option (FieldStat × Nat) :=
  match matchWord cs with
  | none => none
  | some (fieldName, r1) =>
    match skipWs r1 with
    | ':' :: r2 =>
      let r3 := skipWs r2
      let branchA : Option (FieldStat × Nat) :=
        match r3 with
        | c1 :: c2 :: r4 =>
          if c1 == 'v' && c2 == '.' then
            match matchWord r4 with
            | some (vtype, r5) =>
              match skipWs r5 with
              | '(' :: r6 =>
                let argChars := r6.takeWhile (fun c => !(c == ')'))
                match r6.dropWhile (fun c => !(c == ')')) with
                | ')' :: r7 =>
                  let validatorType := String.mk vtype
                  let validatorArg := trimString (String.mk argChars)
                  some ({ path := String.mk fieldName,
                          types := resolveValidatorType validatorType validatorArg,
                          optionalRate := if validatorType = "optional" then 1 else 0,
                          sampleCount := 0, confidence := 1 },
                        cs.length - r7.length)
                | _ => none
              | _ => none
            | none => none
          else none
        | _ => none
      match branchA with
      | some r => some r
      | none =>
        match matchWord r3 with
        | some (w, _) =>
          match matchCustomValidator w with
          | some tok =>
            some ({ path := String.mk fieldName,
                    types := [stripValidatorSuffix (String.mk tok)],
                    optionalRate := 0, sampleCount := 0, confidence := 4/5 },
                  cs.length - (r3.length - tok.length))
          | none => none
        | none => none
    | _ => none

/-- `parseFields` from `schemaParser.ts`. -/
def parseFields (fieldsBlock : List Char) : List FieldStat :=
  execScan tryFieldMatchAt fieldsBlock

/-- The id-reference pattern
`(\w+)\s*:\s*v\.(?:optional\s*\(\s*)?id\s*\(\s*["'](\w+)["']\s*\)` at one
position, returning ((field name, target table), match length). The
optional `optional\s*\(\s*` group is tried first and dropped again when the
following `id` part fails, as the engine backtracks. -/
def tryIdRefMatchAt (cs : List Char) : Option ((String × String) × Nat) :=
  match matchWord cs with
  | none => none
  | some (fieldName, r1) =>
    match skipWs r1 with
    | ':' :: r2 =>
      match skipWs r2 with
      | c1 :: c2 :: r3 =>
        if c1 == 'v' && c2 == '.' then
          let tryId : List Char → Option ((String × String) × Nat) := fun r =>
            match matchLit "id".data r with
            | some r6 =>
              match skipWs r6 with
              | '(' :: r7 =>
                match skipWs r7 with
                | q1 :: r8 =>
                  if isQuote q1 then
                    match matchWord r8 with
                    | some (tname, r9) =>
                      match r9 with
                      | q2 :: r10 =>
                        if isQuote q2 then
                          match skipWs r10 with
                          | ')' :: r11 =>
                            some ((String.mk fieldName, String.mk tname),
                              cs.length - r11.length)
                          | _ => none
                        else none
                      | [] => none
                    | none => none
                  else none
                | [] => none
              | _ => none
            | none => none
          let afterOpt : Option (List Char) :=
            match matchLit "optional".data r3 with
            | some r4 =>
              match skipWs r4 with
              | '(' :: r5 => some (skipWs r5)
              | _ => none
            | none => none
          match afterOpt with
          | some r' =>
            match tryId r' with
            | some res => some res
            | none => tryId r3
          | none => tryId r3
        else none
      | _ => none
    | _ => none

/-- `extractRelations` from `schemaParser.ts`. -/
def extractRelations (tableName : String) (fieldsBlock : List Char) :
    List RelationEdge :=
  (execScan tryIdRefMatchAt fieldsBlock).map (fun m =>
    { fromTable := tableName, fromFieldPath := m.1, toTable := m.2,
      confidence := 1, source := RelSource.inferred })

/-- Lookahead `\w+\s*:\s*defineTable` of the scope pattern. -/
def startsTableDefLookahead (cs : List Char) : Bool :=
  match matchWord cs with
  | some (_, r1) =>
    match skipWs r1 with
    | ':' :: r2 => (matchLit "defineTable".data (skipWs r2)).isSome
    | _ => false
  | none => false

/-- Lookahead `export\s+const` of the scope pattern. -/
def startsExportConst (cs : List Char) : Bool :=
  match matchLit "export".data cs with
  | some r1 =>
    match matchWs1 r1 with
    | some r2 => (matchLit "const".data r2).isSome
    | none => false
  | none => false

/-- The lookahead `(?=(?:export\s+const|(?:^|\n)\w+\s*:\s*defineTable)|$)`
at absolute offset `abs` of the searched string (`^` only matches at 0; `$`
without the `m` flag only at the very end). -/
def scopeBoundaryAt (abs : Nat) (cs : List Char) : Bool :=
  startsExportConst cs ||
  (abs == 0 && startsTableDefLookahead cs) ||
  (match cs with
   | '\n' :: r => startsTableDefLookahead r
   | _ => false) ||
  cs.isEmpty

/-- The lazy group `([\s\S]*?)` before the lookahead: extend one character
at a time until the boundary holds (the end of input always is one). -/
def lazyUntilBoundary : Nat → List Char → List Char
  | _, [] => []
  | abs, c :: rest =>
    if scopeBoundaryAt abs (c :: rest) then []
    else c :: lazyUntilBoundary (abs + 1) rest

/-- The scope pattern
`defineTable\s*\(\s*\{[\s\S]*?\}\s*\)([\s\S]*?)(?=...|$)` at one position
(`abs` is the position within the searched string); returns the captured
chain block. -/
def tryScopeAt (abs : Nat) (cs : List Char) : Option (List Char) :=
  match matchLit "defineTable".data cs with
  | none => none
  | some r1 =>
    match skipWs r1 with
    | '(' :: r2 =>
      match skipWs r2 with
      | ob :: r3 =>
        if ob == openBrace then
          match findCloseBrace r3 with
          | some (_, r4) => some (lazyUntilBoundary (abs + (cs.length - r4.length)) r4)
          | none => none
        else none
      | [] => none
    | _ => none

/-- Leftmost match of the scope pattern (JS `String.match`). -/
def findScope : Nat → List Char → Option (List Char)
  | _, [] => none
  | abs, c :: rest =>
    match tryScopeAt abs (c :: rest) with
    | some chain => some chain
    | none => findScope (abs + 1) rest

/-- JS `String.prototype.split(sep)` for a one-character separator (the
empty string splits to `[""]`). -/
def splitList (sep : Char) : List Char → List (List Char)
  | [] => [[]]
  | c :: rest =>
    if c == sep then [] :: splitList sep rest
    else
      match splitList sep rest with
      | [] => [[c]]
      | g :: gs => (c :: g) :: gs

/-- `fieldsStr.split(",").map(f => f.trim().replace(/["']/g, "")).filter(Boolean)`. -/
def parseIndexFields (fieldsStr : String) : List String :=
  (((splitList ',' fieldsStr.data).map
      (fun f => stripQuotes (trimString (String.mk f)))).filter
    (fun f => !(f == "")))

/-- `\.index\s*\(\s*["']([^"']+)["']\s*,\s*\[([^\]]*)\]\s*\)` at one
position, returning ((index name, parsed field list), match length). -/
def tryIndexMatchAt (cs : List Char) : Option ((String × List String) × Nat) :=
  match matchLit ".index".data cs with
  | none => none
  | some r1 =>
    match skipWs r1 with
    | '(' :: r2 =>
      match skipWs r2 with
      | q1 :: r3 =>
        if isQuote q1 then
          let nameChars := r3.takeWhile (fun c => !(isQuote c))
          if nameChars.isEmpty then none
          else
            match r3.dropWhile (fun c => !(isQuote c)) with
            | _ :: r4 =>
              match skipWs r4 with
              | ',' :: r5 =>
                match skipWs r5 with
                | '[' :: r6 =>
                  let inner := r6.takeWhile (fun c => !(c == ']'))
                  match r6.dropWhile (fun c => !(c == ']')) with
                  | ']' :: r7 =>
                    match skipWs r7 with
                    | ')' :: r8 =>
                      some ((String.mk nameChars, parseIndexFields (String.mk inner)),
                        cs.length - r8.length)
                    | _ => none
                  | _ => none
                | _ => none
              | _ => none
            | [] => none
        else none
      | [] => none
    | _ => none

/-- First occurrence of `<fieldLit>\s*:\s*["'](\w+)["']` inside an index
options body (`searchField` / `vectorField` lookup). -/
def tryNamedFieldAt (fieldLit : List Char) (cs : List Char) : Option String :=
  match matchLit fieldLit cs with
  | none => none
  | some r1 =>
    match skipWs r1 with
    | ':' :: r2 =>
      match skipWs r2 with
      | q1 :: r3 =>
        if isQuote q1 then
          match matchWord r3 with
          | some (w, r4) =>
            match r4 with
            | q2 :: _ => if isQuote q2 then some (String.mk w) else none
            | [] => none
          | none => none
        else none
      | [] => none
    | _ => none

def findNamedField (fieldLit : List Char) : List Char → Option String
  | [] => none
  | c :: rest =>
    match tryNamedFieldAt fieldLit (c :: rest) with
    | some s => some s
    | none => findNamedField fieldLit rest

/-- `\.searchIndex\s*\(\s*["']([^"']+)["']\s*,\s*\{([^}]*)\}\s*\)` (or the
`vectorIndex` variant) at one position; the single searchable/vector field
is extracted from the options body. -/
def tryOptionsIndexAt (callLit fieldLit : List Char) (cs : List Char) :
    Option ((String × List String) × Nat) :=
  match matchLit callLit cs with
  | none => none
  | some r1 =>
    match skipWs r1 with
    | '(' :: r2 =>
      match skipWs r2 with
      | q1 :: r3 =>
        if isQuote q1 then
          let nameChars := r3.takeWhile (fun c => !(isQuote c))
          if nameChars.isEmpty then none
          else
            match r3.dropWhile (fun c => !(isQuote c)) with
            | _ :: r4 =>
              match skipWs r4 with
              | ',' :: r5 =>
                match skipWs r5 with
                | ob :: r6 =>
                  if ob == openBrace then
                    let body := r6.takeWhile (fun c => !(c == closeBrace))
                    match r6.dropWhile (fun c => !(c == closeBrace)) with
                    | _ :: r7 =>
                      match skipWs r7 with
                      | ')' :: r8 =>
                        let fields :=
                          match findNamedField fieldLit body with
                          | some f => [f]
                          | none => []
                        some ((String.mk nameChars, fields), cs.length - r8.length)
                      | _ => none
                    | [] => none
                  else none
                | [] => none
              | _ => none
            | [] => none
        else none
      | [] => none
    | _ => none

/-- `extractIndexes` from `schemaParser.ts`: bound the search to the chain
after this table's `defineTable(...)`, then collect plain, search and
vector index declarations. -/
def extractIndexes (tableName : String) (fullContent : List Char)
    (tableStart : Nat) : List IndexDefinition :=
  let afterTable := fullContent.drop tableStart
  let chainBlock :=
    match findScope 0 afterTable with
    | some chain => chain
    | none => afterTable
  (execScan tryIndexMatchAt chainBlock).map (fun m =>
    { table := tableName, name := m.1, fields := m.2, type := IndexType.by_field }) ++
  (execScan (tryOptionsIndexAt ".searchIndex".data "searchField".data) chainBlock).map
    (fun m => { table := tableName, name := m.1, fields := m.2, type := IndexType.search }) ++
  (execScan (tryOptionsIndexAt ".vectorIndex".data "vectorField".data) chainBlock).map
    (fun m => { table := tableName, name := m.1, fields := m.2, type := IndexType.vector })

/-- Result record of the parser. -/
structure ParseResult where
  tables : List TableSchema
  indexes : List IndexDefinition
  relations : List RelationEdge
deriving DecidableEq, Repr

/-- `parseSourceFile` from `schemaParser.ts` (`Date.now()` passed as `now`):
find every table definition, parse its field block, extract its relations
and its chained indexes. -/
def parseSourceFile (content : String) (now : Nat) : ParseResult :=
  let tableMatches := execScanIdx tryTableMatchAt content.data
  { tables := tableMatches.map (fun m =>
      { table := m.1.1, fields := parseFields m.1.2,
        sampledDocs := 0, inferredAt := now }),
    indexes := tableMatches.flatMap (fun m => extractIndexes m.1.1 content.data m.2),
    relations := tableMatches.flatMap (fun m => extractRelations m.1.1 m.1.2) }

/-- The spec's parser end-to-end example source text. -/
def c2Source : String :=
  "tasks: defineTable(\x7b projectId: v.id(\"projects\"), status: v.union(v.literal(\"todo\"), v.literal(\"done\")) \x7d).index(\"by_project\", [\"projectId\",\"status\"])"

set_option maxRecDepth 4000 in
/-- C2: parsing the example definition block yields exactly one table named
`tasks` whose field `projectId` has type list `["Id<projects>"]`, exactly
one relation edge `tasks.projectId -> projects` with confidence 1 and
source `inferred`, and exactly one by-field index `by_project` over
`["projectId", "status"]`. -/
theorem c2_parser_end_to_end :
    ((parseSourceFile c2Source 0).tables.map (fun t => t.table) = ["tasks"]) ∧
    ((((parseSourceFile c2Source 0).tables.flatMap (fun t => t.fields)).filter
        (fun f => f.path == "projectId")).map (fun f => f.types)
      = [["Id<projects>"]]) ∧
    ((parseSourceFile c2Source 0).relations =
      [{ fromTable := "tasks", fromFieldPath := "projectId", toTable := "projects",
         confidence := 1, source := RelSource.inferred }]) ∧
    ((parseSourceFile c2Source 0).indexes =
      [{ table := "tasks", name := "by_project", fields := ["projectId", "status"],
         type := IndexType.by_field }]) := by
  decide

/-! ## Import following (`parseConvexSchema`, `collectAllSources`,
`followReExports`)

`vscode.Uri.joinPath` with `".."` is modelled by `parentDir`; joining path
segments is string concatenation with `"/"`. The file system
(`vscode.workspace.fs.readFile` through `readFileContent`, which returns
`null` on failure) is an oracle `String → Option String` on candidate
paths. -/

/-- `Uri.joinPath(uri, "..")`: drop the last `/`-separated component. -/
def parentDir (path : String) : String :=
  String.mk ((((path.data.reverse).dropWhile (fun c => !(c == '/'))).drop 1).reverse)

/-- The import pattern `from\s+["']\.\/([^"']+)["']` at one position. -/
def tryImportMatchAt (cs : List Char) : Option (String × Nat) :=
  match matchLit "from".data cs with
  | none => none
  | some r1 =>
    match matchWs1 r1 with
    | none => none
    | some r2 =>
      match r2 with
      | q1 :: '.' :: '/' :: r3 =>
        if isQuote q1 then
          let pathChars := r3.takeWhile (fun c => !(isQuote c))
          if pathChars.isEmpty then none
          else
            match r3.dropWhile (fun c => !(isQuote c)) with
            | _ :: r4 => some (String.mk pathChars, cs.length - r4.length)
            | [] => none
        else none
      | _ => none

/-- All relative import paths of a source text, in match order. -/
def importList (content : String) : List String :=
  execScan tryImportMatchAt content.data

/-- The `Set` of import paths built by `collectAllSources`. -/
def importPaths (content : String) : List String :=
  jsSetList (importList content)

/-- The four candidate paths tried for one import. -/
def importCandidates (schemaDir importPath : String) : List String :=
  [schemaDir ++ "/" ++ importPath ++ "/index.ts",
   schemaDir ++ "/" ++ importPath ++ "/index.js",
   schemaDir ++ "/" ++ importPath ++ ".ts",
   schemaDir ++ "/" ++ importPath ++ ".js"]

/-- First candidate whose content resolves, with its content. -/
def resolveFirst (fs : String → Option String) : List String → Option (String × String)
  | [] => none
  | c :: rest =>
    match fs c with
    | some content => some (c, content)
    | none => resolveFirst fs rest

/-- The re-export pattern
`(?:export\s+\{[^}]*\}\s+from|export\s+\*\s+from)\s+["']\.\/([^"']+)["']` at
one position. -/
def tryReExportMatchAt (cs : List Char) : Option (String × Nat) :=
  match matchLit "export".data cs with
  | none => none
  | some r1 =>
    match matchWs1 r1 with
    | none => none
    | some r2 =>
      let afterFrom : Option (List Char) :=
        match r2 with
        | ob :: r3 =>
          if ob == openBrace then
            match r3.dropWhile (fun c => !(c == closeBrace)) with
            | _ :: r5 =>
              match matchWs1 r5 with
              | some r6 => matchLit "from".data r6
              | none => none
            | [] => none
          else if ob == '*' then
            match matchWs1 r3 with
            | some r6 => matchLit "from".data r6
            | none => none
          else none
        | [] => none
      match afterFrom with
      | none => none
      | some r7 =>
        match matchWs1 r7 with
        | none => none
        | some r8 =>
          match r8 with
          | q1 :: '.' :: '/' :: r9 =>
            if isQuote q1 then
              let pathChars := r9.takeWhile (fun c => !(isQuote c))
              if pathChars.isEmpty then none
              else
                match r9.dropWhile (fun c => !(isQuote c)) with
                | _ :: r10 => some (String.mk pathChars, cs.length - r10.length)
                | [] => none
            else none
          | _ => none

/-- All re-export module names of a barrel file, in match order. -/
def reExportList (content : String) : List String :=
  execScan tryReExportMatchAt content.data

/-- `followReExports` from `schemaParser.ts`: resolve each re-export one
level (no recursion into the resolved files); if none resolve, the index
file itself is the source. -/
def followReExports (fs : String → Option String) (indexUri indexContent : String) :
    List String :=
  let dir := parentDir indexUri
  let sources := (reExportList indexContent).filterMap (fun moduleName =>
    (resolveFirst fs
      [dir ++ "/" ++ moduleName ++ ".ts",
       dir ++ "/" ++ moduleName ++ ".js",
       dir ++ "/" ++ moduleName ++ "/index.ts"]).map (fun r => r.2))
  if sources.isEmpty then [indexContent] else sources

/-- The sources contributed by one import path of `collectAllSources`: the
re-export expansion of the first resolving candidate, or nothing when no
candidate resolves (a file that fails to read is skipped silently). -/
def importContribution (fs : String → Option String) (schemaDir importPath : String) :
    List String :=
  match resolveFirst fs (importCandidates schemaDir importPath) with
  | none => []
  | some pc => followReExports fs pc.1 pc.2

/-- `collectAllSources` from `schemaParser.ts`: the entry content plus the
contribution of every distinct import, in order. -/
def collectAllSources (fs : String → Option String) (schemaUri schemaContent : String) :
    List String :=
  schemaContent :: (importPaths schemaContent).flatMap
    (importContribution fs (parentDir schemaUri))

/-- `parseConvexSchema` from `schemaParser.ts`: the located schema file
(`findSchemaFile`, an external collaborator) is passed as `schemaFile`; a
missing file or unreadable entry yields the empty result. -/
def parseConvexSchema (schemaFile : Option String) (fs : String → Option String)
    (now : Nat) : ParseResult :=
  match schemaFile with
  | none => { tables := [], indexes := [], relations := [] }
  | some uri =>
    match fs uri with
    | none => { tables := [], indexes := [], relations := [] }
    | some schemaContent =>
      (collectAllSources fs uri schemaContent).foldl
        (fun acc source =>
          let result := parseSourceFile source now
          { tables := acc.tables ++ result.tables,
            indexes := acc.indexes ++ result.indexes,
            relations := acc.relations ++ result.relations })
        { tables := [], indexes := [], relations := [] }

/-- Upper bound of one import's contribution: nothing when unresolved,
otherwise one source per re-export statement of the resolved file (at least
one, for the barrel itself). -/
def importBound (fs : String → Option String) (schemaDir importPath : String) : Nat :=
  match resolveFirst fs (importCandidates schemaDir importPath) with
  | none => 0
  | some pc => max 1 (reExportList pc.2).length

/-! ## Termination and failure semantics of the import traversal (C7, C9) -/

theorem flatMap_length_le {α β : Type} (l : List α) (f : α → List β) (g : α → Nat)
    (h : ∀ p ∈ l, (f p).length ≤ g p) :
    (l.flatMap f).length ≤ (l.map g).sum := by
  induction l with
  | nil => simp
  | cons hd tl ih =>
    simp only [List.flatMap_cons, List.map_cons, List.length_append, List.sum_cons]
    have htl := ih (fun p hp => h p (List.mem_cons_of_mem _ hp))
    have hhd := h hd (List.mem_cons_self _ _)
    omega

theorem importContribution_length_le (fs : String → Option String)
    (schemaDir importPath : String) :
    (importContribution fs schemaDir importPath).length ≤
      importBound fs schemaDir importPath := by
  unfold importContribution importBound
  cases hres : resolveFirst fs (importCandidates schemaDir importPath) with
  | none => simp
  | some pc =>
    simp only [followReExports]
    split
    · simp
    · have := List.length_filterMap_le
        (fun moduleName => Option.map (fun r => r.2)
          (resolveFirst fs
            [parentDir pc.1 ++ "/" ++ moduleName ++ ".ts",
             parentDir pc.1 ++ "/" ++ moduleName ++ ".js",
             parentDir pc.1 ++ "/" ++ moduleName ++ "/index.ts"]))
        (reExportList pc.2)
      omega

/-- The cyclic example: the entry imports `./a`; `a.ts` re-exports `./b`;
`b.ts` re-exports `./a` again, closing the cycle. -/
def cyclicEntry : String := "import \x7b a \x7d from \"./a\""

def cyclicA : String := "export * from \"./b\""

def cyclicB : String := "export * from \"./a\""

def cyclicFs : String → Option String := fun path =>
  if path = "root/a.ts" then some cyclicA
  else if path = "root/b.ts" then some cyclicB
  else none

/-- C7: the import-following traversal is total and bounded for every file
resolver — including cyclic ones — because re-exports are followed exactly
one level and never recursively: the source list is at most one entry plus
one source per re-export statement of each resolved import. On the concrete
cyclic file system the traversal terminates with the entry and the one
barrel expansion, never following the cycle back. -/
theorem c7_import_traversal_terminates :
    (∀ (fs : String → Option String) (schemaUri schemaContent : String),
      (collectAllSources fs schemaUri schemaContent).length ≤
        1 + ((importPaths schemaContent).map
              (importBound fs (parentDir schemaUri))).sum) ∧
    (collectAllSources cyclicFs "root/schema.ts" cyclicEntry
      = [cyclicEntry, cyclicB]) := by
  constructor
  · intro fs schemaUri schemaContent
    unfold collectAllSources
    simp only [List.length_cons]
    have := flatMap_length_le (importPaths schemaContent)
      (importContribution fs (parentDir schemaUri))
      (importBound fs (parentDir schemaUri))
      (fun p _ => importContribution_length_le fs (parentDir schemaUri) p)
    omega
  · decide

theorem resolveFirst_eq_none {fs : String → Option String} {cands : List String}
    (h : ∀ c ∈ cands, fs c = none) : resolveFirst fs cands = none := by
  induction cands with
  | nil => rfl
  | cons hd tl ih =>
    unfold resolveFirst
    rw [h hd (List.mem_cons_self _ _)]
    exact ih (fun c hc => h c (List.mem_cons_of_mem _ hc))

theorem flatMap_filter_of_nil {β : Type} (l : List String) (f : String → List β)
    (p : String) (h : f p = []) :
    l.flatMap f = (l.filter (fun q => !(q == p))).flatMap f := by
  induction l with
  | nil => rfl
  | cons hd tl ih =>
    by_cases hc : hd = p
    · subst hc
      simp only [List.flatMap_cons, h, List.nil_append, List.filter_cons,
        beq_self_eq_true, Bool.not_true, Bool.false_eq_true, if_false]
      exact ih
    · have hbeq : (hd == p) = false := beq_eq_false_iff_ne.2 hc
      simp only [List.flatMap_cons, List.filter_cons, hbeq, Bool.not_false, if_true]
      rw [ih]

/-- C9: a missing schema entry file, or an unreadable one, yields the empty
parse result rather than an error; and an import whose candidate files all
fail to read contributes nothing — the sources collected from the other
imports are exactly those collected with that import ignored. -/
theorem c9_missing_file_semantics :
    (∀ (fs : String → Option String) (now : Nat),
      parseConvexSchema none fs now = { tables := [], indexes := [], relations := [] }) ∧
    (∀ (uri : String) (fs : String → Option String) (now : Nat), fs uri = none →
      parseConvexSchema (some uri) fs now
        = { tables := [], indexes := [], relations := [] }) ∧
    (∀ (fs : String → Option String) (uri content p : String),
      (∀ c ∈ importCandidates (parentDir uri) p, fs c = none) →
      collectAllSources fs uri content
        = content :: ((importPaths content).filter (fun q => !(q == p))).flatMap
            (importContribution fs (parentDir uri))) := by
  refine ⟨fun fs now => rfl, ?_, ?_⟩
  · intro uri fs now hnone
    simp only [parseConvexSchema, hnone]
  · intro fs uri content p hnone
    unfold collectAllSources
    have hnil : importContribution fs (parentDir uri) p = [] := by
      unfold importContribution
      rw [resolveFirst_eq_none hnone]
    rw [flatMap_filter_of_nil _ _ p hnil]

/-- Witness for C9: the resolver that fails on every path yields the empty
result for an entry file it cannot read. -/
theorem c9_missing_file_semantics_witness :
    parseConvexSchema (some "root/schema.ts") (fun _ => none) 0
      = { tables := [], indexes := [], relations := [] } :=
  c9_missing_file_semantics.2.1 "root/schema.ts" (fun _ => none) 0 rfl
